import Mathlib

/-!
Verification development for the `pydkg` ECDKG protocol engine
(`src/pydkg/ecdkg.py`).

The protocol operates in the secp256k1 curve group, which is cyclic of
prime order `N`.  The library operations `secp256k1.add` and
`secp256k1.multiply` (from `py_ecc`, an external dependency) are modelled
at the group level: a curve point is represented by its discrete
logarithm base `G`, i.e. by an element of `ZMod N`, with `G = 1`,
point addition the group addition, and scalar multiplication the scalar
action.  This is a faithful model of the group structure (the group is
cyclic of prime order), which is all that the protocol logic observes
through `add`/`multiply`/equality.  The second generator `G2` (called `H`
in the spec), whose discrete logarithm is deliberately unknown, is
threaded through as an explicit parameter of the inputs.

Wire-level concerns (hex parsing of points, `'\x7b0[0]:064x\x7d'`-style
formatting, curve membership of raw coordinate pairs) are modelled
separately at the coordinate level in the `Wire` section below, because
they are about raw `(x, y)` integer pairs rather than about the group
structure.

External collaborators of the engine that live outside `src/`
(`util`, `db`, `networking`) are modelled from the spec where needed;
each such definition carries a doc comment starting with
`Modelled from the spec:`.
-/

namespace secp256k1

/-- Order of the secp256k1 group (py_ecc `secp256k1.N`). -/
def N : ℕ := 115792089237316195423570985008687907852837564279074904382605163141518161494337

/-- Field prime of secp256k1 (py_ecc `secp256k1.P`); used only for the
coordinate-level on-curve test. -/
def P : ℕ := 115792089237316195423570985008687907853269984665640564039457584007908834671663

/-- A curve point, represented by its discrete logarithm base `G` in the
cyclic group of prime order `N`. -/
abbrev Point : Type := ZMod N

/-- The base point `G` (discrete-log representation: the generator is `1`). -/
def G : Point := 1

/-- Group-level model of py_ecc `secp256k1.add`. -/
def add (p q : Point) : Point := p + q

/-- Group-level model of py_ecc `secp256k1.multiply` (scalar times point;
the scalar is a Python int, here a natural number). -/
def multiply (p : Point) (s : ℕ) : Point := (s : ZMod N) * p

end secp256k1

/-- The phase enumeration of the protocol (`ECDKGPhase`, an `IntEnum`). -/
inductive ECDKGPhase where
  | uninitialized
  | key_distribution
  | key_verification
  | key_check
  | key_generation
  | key_publication
  | complete
deriving DecidableEq, Repr

/-- Numeric value of a phase, as in the `IntEnum` (`uninitialized = 0`, ...,
`complete = 6`); phases are compared numerically (`self.phase < target_phase`). -/
def ECDKGPhase.toNat : ECDKGPhase → ℕ
  | .uninitialized => 0
  | .key_distribution => 1
  | .key_verification => 2
  | .key_check => 3
  | .key_generation => 4
  | .key_publication => 5
  | .complete => 6

/-- Python exceptions that the phase handlers can raise. `protocolError` is
the repository's `ProtocolError`; the others are builtin exception classes.
`nonterm` marks fuel exhaustion of the modelled `while` loop (i.e. the model
ran the loop for fewer iterations than needed; it is never a normal return). -/
inductive PyErr where
  | protocolError
  | typeError
  | valueError
  | indexError
  | attributeError
  | nonterm
deriving DecidableEq, Repr

/-- An rsv signature triplet, as returned by `util.sign_with_key`.  Its
internal structure is never inspected by the engine, only passed around. -/
abbrev Signature : Type := ℕ × ℕ × ℕ

/-- Modelled from the spec: `util.address_to_bytes(a)` — 20 bytes, big-endian
(`util` is not under `src/`). Bytes are modelled as natural numbers. -/
def address_to_bytes (a : ℕ) : List ℕ :=
  (List.range 20).map (fun i => a / 256 ^ (19 - i) % 256)

/-- Modelled from the spec: `util.private_value_to_bytes(s)` — 32 bytes,
big-endian, zero-padded (`util` is not under `src/`). -/
def private_value_to_bytes (s : ℕ) : List ℕ :=
  (List.range 32).map (fun i => s / 256 ^ (31 - i) % 256)

/-- Byte encoding of a string (Python `str.encode()`); decryption conditions
are short normalized ASCII tags, on which UTF-8 is the codepoint sequence. -/
def str_encode (s : String) : List ℕ := s.data.map Char.toNat

/-- The canonical signed-shares message of `handle_key_distribution_phase`
(lines 130–136): `decryption_condition.encode() + address_to_bytes(own_address)
+ b'SECRETSHARES' + private_value_to_bytes(share1) + private_value_to_bytes(share2)`. -/
def ss_msg_bytes (decryption_condition : String) (own_address share1 share2 : ℕ) : List ℕ :=
  str_encode decryption_condition ++ address_to_bytes own_address ++
    str_encode "SECRETSHARES" ++ private_value_to_bytes share1 ++ private_value_to_bytes share2

/-- `random_polynomial(order)`: a tuple of `order` random private values.
`util.random_private_value` draws from a cryptographic RNG; the model takes
the stream of drawn values as the explicit argument `draw`. -/
def random_polynomial (order : ℕ) (draw : ℕ → ℕ) : List ℕ :=
  (List.range order).map draw

/-- `eval_polynomial(poly, x)`: `sum(c * pow(x, k, N) for k, c in enumerate(poly)) % N`. -/
def eval_polynomial (poly : List ℕ) (x : ℕ) : ℕ :=
  (poly.enum.map (fun kc => kc.2 * (x ^ kc.1 % secp256k1.N))).sum % secp256k1.N

/-- The `ECDKGParticipant` row: per-peer protocol state within a session
(nullable columns are `Option`). -/
structure ECDKGParticipant where
  eth_address : ℕ
  encryption_key_part : Option secp256k1.Point := none
  decryption_key_part : Option ℕ := none
  verification_points : Option (List secp256k1.Point) := none
  secret_share1 : Option ℕ := none
  secret_share2 : Option ℕ := none
  shares_signature : Option Signature := none
deriving DecidableEq, Repr

/-- The `ECDKG` session row.  `complaints` is the session's slice of the
`ECDKGComplaint` table, as pairs `(participant eth_address, complainer_address)`
(participants are unique per `(ecdkg_id, eth_address)`). -/
structure ECDKG where
  decryption_condition : String
  phase : ECDKGPhase := .uninitialized
  threshold : Option ℕ := none
  encryption_key : Option secp256k1.Point := none
  decryption_key : Option ℕ := none
  participants : List ECDKGParticipant := []
  secret_poly1 : Option (List ℕ) := none
  secret_poly2 : Option (List ℕ) := none
  verification_points : Option (List secp256k1.Point) := none
  encryption_key_part : Option secp256k1.Point := none
  complaints : List (ℕ × ℕ) := []
deriving DecidableEq, Repr

/-- The external inputs a run of the protocol engine consumes: the module
globals (`own_address`, the constant `G2`), the connected channels, the RNG
stream, the signature-recovery primitive (`util.address_from_message_and_signature`,
modelled from the spec as an abstract recovery function that may fail with
`ValueError`), and the per-peer responses collected by
`networking.broadcast_jsonrpc_call_on_all_channels` for each RPC method
(absent key = peer missing from the response mapping).  Point- and
scalar-valued responses are modelled already decoded from hex; the hex layer
itself is modelled in the `Wire` section. -/
structure PhaseInputs where
  own_address : ℕ
  G2 : secp256k1.Point
  channels : List ℕ
  draw1 : ℕ → ℕ
  draw2 : ℕ → ℕ
  recover : List ℕ → Signature → Except Unit ℕ
  signed_secret_shares : ℕ → Option ((ℕ × ℕ) × Signature)
  verification_points_resp : ℕ → Option (List secp256k1.Point)
  encryption_key_parts : ℕ → Option secp256k1.Point
  dec_key_parts : ℕ → Option ℕ

/-- `THRESHOLD_FACTOR = .5`; `math.ceil(THRESHOLD_FACTOR * (len+1))`.  The
float product `0.5 * (n+1)` is exact for every feasible participant count,
so the formula is `⌈(n+1)/2⌉`, which in natural division is `(n+2)/2`;
`threshold_formula_eq_ceil` below proves this form equal to the rational
ceiling `⌈0.5 · (n+1)⌉`. -/
def threshold_formula (n : ℕ) : ℕ := (n + 2) / 2

theorem threshold_formula_eq_ceil (n : ℕ) :
    threshold_formula n = Nat.ceil ((1 / 2 : ℚ) * (n + 1)) := by
  unfold threshold_formula
  have h2 : (0 : ℚ) < 2 := by norm_num
  have hq : (1 / 2 : ℚ) * (n + 1) = (n + 1) / 2 := by ring
  apply le_antisymm
  · have hlt : (n + 2) / 2 - 1 < Nat.ceil ((1 / 2 : ℚ) * (n + 1)) := by
      rw [Nat.lt_ceil, hq, lt_div_iff₀ h2]
      have hn : ((n + 2) / 2 - 1) * 2 < n + 1 := by omega
      exact_mod_cast hn
    omega
  · rw [Nat.ceil_le, hq, div_le_iff₀ h2]
    have hn : n + 1 ≤ ((n + 2) / 2) * 2 := by omega
    exact_mod_cast hn

/-- `get_or_create_participant_by_address`: look up by address within the
session, create (append) if absent. -/
def get_or_create_participant_by_address (ps : List ECDKGParticipant) (addr : ℕ) :
    List ECDKGParticipant :=
  if ps.any (fun p => p.eth_address == addr) then ps else ps ++ [{ eth_address := addr }]

/-- The participant-creation loop of `handle_uninitialized_phase`
(`for addr in networking.channels.keys(): self.get_or_create_participant_by_address(addr)`). -/
def create_participants (ps : List ECDKGParticipant) (chans : List ℕ) : List ECDKGParticipant :=
  chans.foldl get_or_create_participant_by_address ps

/-- `handle_uninitialized_phase` (lines 91–112): create participants, derive
the threshold, draw the two secret polynomials, set own
`encryption_key_part = secret_poly1[0]·G` and the Pedersen
`verification_points`, advance to `key_distribution`.  An error result
carries the mutated session (here only reachable if the freshly drawn
polynomial were empty, i.e. never, since the threshold is ≥ 1). -/
def handle_uninitialized_phase (inp : PhaseInputs) (s : ECDKG) :
    Except (PyErr × ECDKG) ECDKG :=
  let ps := create_participants s.participants inp.channels
  let t := threshold_formula ps.length
  let spoly1 := random_polynomial t inp.draw1
  let spoly2 := random_polynomial t inp.draw2
  match spoly1 with
  | [] => .error (.indexError,
      { s with participants := ps, threshold := some t,
               secret_poly1 := some spoly1, secret_poly2 := some spoly2 })
  | c0 :: _ =>
    .ok { s with
      participants := ps,
      threshold := some t,
      secret_poly1 := some spoly1,
      secret_poly2 := some spoly2,
      encryption_key_part := some (secp256k1.multiply secp256k1.G c0),
      verification_points := some (List.zipWith
        (fun a b => secp256k1.add (secp256k1.multiply secp256k1.G a)
                      (secp256k1.multiply inp.G2 b)) spoly1 spoly2),
      phase := .key_distribution }

/-- The signed-shares section of `handle_key_distribution_phase`
(lines 120–153), per participant: a missing response, a signature that fails
to recover (`ValueError`, caught), or a recovered address different from the
peer's address leave the participant unchanged; otherwise the shares and the
signature are persisted. -/
def update_share (inp : PhaseInputs) (cond : String) (p : ECDKGParticipant) :
    ECDKGParticipant :=
  match inp.signed_secret_shares p.eth_address with
  | none => p
  | some ((share1, share2), signature) =>
    match inp.recover (ss_msg_bytes cond inp.own_address share1 share2) signature with
    | .error _ => p
    | .ok recovered_address =>
      if p.eth_address ≠ recovered_address then p
      else { p with secret_share1 := some share1, secret_share2 := some share2,
                    shares_signature := some signature }

/-- The verification-points section of `handle_key_distribution_phase`
(lines 159–165), per participant: a present response is persisted (the hex
decoding of the wire strings is modelled in the `Wire` section; no further
validation is performed), a missing one is only logged. -/
def update_vpoints (inp : PhaseInputs) (p : ECDKGParticipant) : ECDKGParticipant :=
  match inp.verification_points_resp p.eth_address with
  | some vps => { p with verification_points := some vps }
  | none => p

/-- `handle_key_distribution_phase` (lines 114–168): process the signed
shares and the verification points of every participant, then advance to
`key_verification`.  No branch raises: missing or invalid responses are
skipped with a warning. -/
def handle_key_distribution_phase (inp : PhaseInputs) (s : ECDKG) :
    Except (PyErr × ECDKG) ECDKG :=
  .ok { s with
    participants := (s.participants.map (update_share inp s.decryption_condition)).map
      (update_vpoints inp),
    phase := .key_verification }

/-- `get_or_create_complaint_by_complainer_address` (lines 336–350): look up
the complaint row keyed `(participant, complainer_address)`, insert if absent. -/
def get_or_create_complaint (complaints : List (ℕ × ℕ)) (participant_address complainer : ℕ) :
    List (ℕ × ℕ) :=
  if (participant_address, complainer) ∈ complaints then complaints
  else complaints ++ [(participant_address, complainer)]

/-- The per-participant body of the `handle_key_verification_phase` loop
(lines 173–188).  `ok true`: the share check passed (`continue`, no
complaint); `ok false`: fall through to the complaint; `error ()`: the body
raises a `TypeError` — either `enumerate(participant.verification_points)`
with the column `None`, or `functools.reduce` without initializer over an
empty sequence. -/
def participant_check (own_address : ℕ) (G2 : secp256k1.Point) (p : ECDKGParticipant) :
    Except Unit Bool :=
  match p.secret_share1, p.secret_share2 with
  | some share1, some share2 =>
    match p.verification_points with
    | none => .error ()
    | some vps =>
      match vps.enum.map (fun kp => secp256k1.multiply kp.2
          (own_address ^ kp.1 % secp256k1.N)) with
      | [] => .error ()
      | v :: vs =>
        let vlhs := secp256k1.add (secp256k1.multiply secp256k1.G share1)
          (secp256k1.multiply G2 share2)
        let vrhs := vs.foldl secp256k1.add v
        .ok (vlhs = vrhs)
  | _, _ => .ok false

/-- The `handle_key_verification_phase` loop over participants.  Complaint
rows are committed as soon as they are created (`get_or_create` commits), so
an error result carries the complaints accumulated so far. -/
def verification_loop (own_address : ℕ) (G2 : secp256k1.Point) :
    List ECDKGParticipant → List (ℕ × ℕ) → Except (List (ℕ × ℕ)) (List (ℕ × ℕ))
  | [], acc => .ok acc
  | p :: rest, acc =>
    match participant_check own_address G2 p with
    | .error () => .error acc
    | .ok true => verification_loop own_address G2 rest acc
    | .ok false =>
      verification_loop own_address G2 rest (get_or_create_complaint acc p.eth_address own_address)

/-- `handle_key_verification_phase` (lines 170–191): run the share check for
every participant, recording complaints on failure, then advance to
`key_check`. -/
def handle_key_verification_phase (inp : PhaseInputs) (s : ECDKG) :
    Except (PyErr × ECDKG) ECDKG :=
  match verification_loop inp.own_address inp.G2 s.participants s.complaints with
  | .error acc => .error (.typeError, { s with complaints := acc })
  | .ok acc => .ok { s with complaints := acc, phase := .key_check }

/-- `handle_key_check_phase` (lines 193–205): the complaint responses are
collected but the body of the loop is a `pass`; the phase advances. -/
def handle_key_check_phase (_inp : PhaseInputs) (s : ECDKG) :
    Except (PyErr × ECDKG) ECDKG :=
  .ok { s with phase := .key_generation }

/-- The participant loop of `handle_key_generation_phase` (lines 211–218):
set each participant's `encryption_key_part` from its response; raise
`ProtocolError` at the first participant whose response is missing (the
participants already processed keep their new value). -/
def set_encryption_key_parts (resp : ℕ → Option secp256k1.Point) :
    List ECDKGParticipant → Except (List ECDKGParticipant) (List ECDKGParticipant)
  | [] => .ok []
  | p :: rest =>
    match resp p.eth_address with
    | none => .error (p :: rest)
    | some ekp =>
      match set_encryption_key_parts resp rest with
      | .ok rest' => .ok ({ p with encryption_key_part := some ekp } :: rest')
      | .error rest' => .error ({ p with encryption_key_part := some ekp } :: rest')

/-- The `functools.reduce(secp256k1.add, (p.encryption_key_part for p in
self.participants), self.encryption_key_part)` of lines 220–224: a left fold
starting at the node's own part; a participant whose column is `None` would
make the curve addition raise (`TypeError` inside py_ecc). -/
def reduce_encryption_key_parts (init : secp256k1.Point) :
    List ECDKGParticipant → Except Unit secp256k1.Point
  | [] => .ok init
  | p :: rest =>
    match p.encryption_key_part with
    | some e => reduce_encryption_key_parts (secp256k1.add init e) rest
    | none => .error ()

/-- `handle_key_generation_phase` (lines 207–227): collect every
participant's `encryption_key_part` (missing ⇒ `ProtocolError`), fold them
onto the node's own part to obtain `encryption_key`, advance to
`key_publication`. -/
def handle_key_generation_phase (inp : PhaseInputs) (s : ECDKG) :
    Except (PyErr × ECDKG) ECDKG :=
  match set_encryption_key_parts inp.encryption_key_parts s.participants with
  | .error ps' => .error (.protocolError, { s with participants := ps' })
  | .ok ps' =>
    match s.encryption_key_part with
    | none => .error (.typeError, { s with participants := ps' })
    | some own_ekp =>
      match reduce_encryption_key_parts own_ekp ps' with
      | .error _ => .error (.typeError, { s with participants := ps' })
      | .ok ek =>
        .ok { s with participants := ps', encryption_key := some ek,
                     phase := .key_publication }

/-- The participant loop of `handle_key_publication_phase` (lines 235–241):
set each participant's `decryption_key_part` from its response; raise
`ProtocolError` at the first missing one. -/
def set_decryption_key_parts (resp : ℕ → Option ℕ) :
    List ECDKGParticipant → Except (List ECDKGParticipant) (List ECDKGParticipant)
  | [] => .ok []
  | p :: rest =>
    match resp p.eth_address with
    | none => .error (p :: rest)
    | some dkp =>
      match set_decryption_key_parts resp rest with
      | .ok rest' => .ok ({ p with decryption_key_part := some dkp } :: rest')
      | .error rest' => .error ({ p with decryption_key_part := some dkp } :: rest')

/-- `sum(p.decryption_key_part for p in self.participants)` (line 244); a
`None` column would make the integer addition raise `TypeError`. -/
def sum_decryption_key_parts : List ECDKGParticipant → Except Unit ℕ
  | [] => .ok 0
  | p :: rest =>
    match p.decryption_key_part with
    | some d =>
      match sum_decryption_key_parts rest with
      | .ok t => .ok (d + t)
      | .error e => .error e
    | none => .error ()

/-- `handle_key_publication_phase` (lines 229–249): after the decryption
condition is satisfied (the awaited external signal; the model assumes it
fires), collect every participant's `decryption_key_part` (missing ⇒
`ProtocolError`), set
`decryption_key = (sum of parts + secret_poly1[0]) mod N`, advance to
`complete`. -/
def handle_key_publication_phase (inp : PhaseInputs) (s : ECDKG) :
    Except (PyErr × ECDKG) ECDKG :=
  match set_decryption_key_parts inp.dec_key_parts s.participants with
  | .error ps' => .error (.protocolError, { s with participants := ps' })
  | .ok ps' =>
    match sum_decryption_key_parts ps' with
    | .error _ => .error (.typeError, { s with participants := ps' })
    | .ok tot =>
      match s.secret_poly1 with
      | none => .error (.typeError, { s with participants := ps' })
      | some [] => .error (.indexError, { s with participants := ps' })
      | some (c0 :: _) =>
        .ok { s with participants := ps',
                     decryption_key := some ((tot + c0) % secp256k1.N),
                     phase := .complete }

/-- The dynamic dispatch `getattr(self, 'handle_{}_phase'.format(self.phase.name))()`
of `run_until_phase`; there is no `handle_complete_phase`, so dispatching at
`complete` raises `AttributeError`. -/
def handle_phase (inp : PhaseInputs) (s : ECDKG) : Except (PyErr × ECDKG) ECDKG :=
  match s.phase with
  | .uninitialized => handle_uninitialized_phase inp s
  | .key_distribution => handle_key_distribution_phase inp s
  | .key_verification => handle_key_verification_phase inp s
  | .key_check => handle_key_check_phase inp s
  | .key_generation => handle_key_generation_phase inp s
  | .key_publication => handle_key_publication_phase inp s
  | .complete => .error (.attributeError, s)

/-- `run_until_phase` (lines 86–89): `while self.phase < target_phase:
handle the current phase`.  The loop is modelled with fuel; exhausting the
fuel while the guard still holds yields the non-normal result `nonterm`. -/
def run_until_phase (fuel : ℕ) (inp : PhaseInputs) (target_phase : ECDKGPhase) (s : ECDKG) :
    Except (PyErr × ECDKG) ECDKG :=
  match fuel with
  | 0 => if s.phase.toNat < target_phase.toNat then .error (.nonterm, s) else .ok s
  | fuel + 1 =>
    if s.phase.toNat < target_phase.toNat then
      match handle_phase inp s with
      | .ok s' => run_until_phase fuel inp target_phase s'
      | .error e => .error e
    else .ok s

namespace Wire

/-!
Coordinate-level model of the wire encodings: hex parsing of the
verification-point responses in `handle_key_distribution_phase`
(lines 161–163) and the format-string snapshots of `to_state_message`
(lines 294–315, 352–360).  Here a raw point is an affine coordinate pair of
integers, exactly as produced by `int(ptstr[i:i+64], 16) for i in (0, 64)`.
-/

/-- Value of a single hex digit (Python `int(•, 16)` digit set). -/
def hexDigitVal (c : Char) : Option ℕ :=
  if '0' ≤ c ∧ c ≤ '9' then some (c.toNat - 48)
  else if 'a' ≤ c ∧ c ≤ 'f' then some (c.toNat - 87)
  else if 'A' ≤ c ∧ c ≤ 'F' then some (c.toNat - 55)
  else none

/-- Python `int(s, 16)` on a bare hex-digit string (the only form peers
send); `none` models the `ValueError` raised on an empty or non-hex string. -/
def parseHex (s : String) : Option ℕ :=
  if s.data.isEmpty then none
  else s.data.foldl (fun acc c => acc.bind fun a => (hexDigitVal c).map fun d => 16 * a + d)
    (some 0)

/-- Python slice `s[i:j]`. -/
def pySlice (s : String) (i j : ℕ) : String := String.mk ((s.data.drop i).take (j - i))

/-- One verification point: `tuple(int(ptstr[i:i+64], 16) for i in (0, 64))`
(line 162–163).  No length check and no curve membership check is applied to
the result. -/
def parse_point_str (ptstr : String) : Option (ℕ × ℕ) :=
  match parseHex (pySlice ptstr 0 64), parseHex (pySlice ptstr 64 128) with
  | some x, some y => some (x, y)
  | _, _ => none

/-- A whole verification-points response: one point per string. -/
def parse_vpoints (strs : List String) : Option (List (ℕ × ℕ)) :=
  strs.mapM parse_point_str

/-- The verification-points columns of a participant, at coordinate level. -/
structure ParticipantVP where
  eth_address : ℕ
  verification_points : Option (List (ℕ × ℕ)) := none
deriving DecidableEq, Repr

/-- The verification-points loop of `handle_key_distribution_phase`
(lines 159–165) at coordinate level: a present response is parsed and
persisted as-is; a missing one is only logged; a string whose hex fails to
parse raises `ValueError` out of the handler (there is no `try` around this
loop). -/
def store_verification_points (resp : ℕ → Option (List String)) :
    List ParticipantVP → Except Unit (List ParticipantVP)
  | [] => .ok []
  | p :: rest =>
    match resp p.eth_address with
    | none =>
      match store_verification_points resp rest with
      | .ok rest' => .ok (p :: rest')
      | .error e => .error e
    | some strs =>
      match parse_vpoints strs with
      | none => .error ()
      | some pts =>
        match store_verification_points resp rest with
        | .ok rest' => .ok ({ p with verification_points := some pts } :: rest')
        | .error e => .error e

/-- Modelled from the spec: `util.validate_curve_point` accepts a point that
is the identity or satisfies `y² ≡ x³ + 7 (mod p)` (`util` is not under
`src/`; the identity is not an affine pair, so a raw parsed pair is on the
curve exactly when it satisfies the equation). -/
def is_on_curve (pt : ℕ × ℕ) : Bool :=
  pt.2 ^ 2 % secp256k1.P == (pt.1 ^ 3 + 7) % secp256k1.P

/-- A Python value as far as the format strings of `to_state_message`
observe it: an int or a tuple. -/
inductive PyVal where
  | int : ℕ → PyVal
  | tuple : List PyVal → PyVal

/-- Hex digit character, lowercase. -/
def hexChar (d : ℕ) : Char :=
  if d < 10 then Char.ofNat (48 + d) else Char.ofNat (87 + d)

/-- Python `format(n, '064x')` for the 256-bit values of this protocol:
64 lowercase hex digits, zero-padded. -/
def format064x (n : ℕ) : String :=
  String.mk ((List.range 64).map (fun i => hexChar (n / 16 ^ (63 - i) % 16)))

/-- Python `format(a, '040x')` for 20-byte addresses. -/
def format040x (a : ℕ) : String :=
  String.mk ((List.range 40).map (fun i => hexChar (a / 16 ^ (39 - i) % 16)))

/-- Python subscript `v[i]`: ok on a tuple of sufficient length
(`IndexError` otherwise), `TypeError` on an int. -/
def pyGetItem (v : PyVal) (i : ℕ) : Except Unit PyVal :=
  match v with
  | .int _ => .error ()
  | .tuple l =>
    match l.get? i with
    | some x => .ok x
    | none => .error ()

/-- Applying the format spec `064x` to a value: an int formats; a tuple
raises `TypeError` (`unsupported format string passed to tuple.__format__`). -/
def pyFormat064x (v : PyVal) : Except Unit String :=
  match v with
  | .int n => .ok (format064x n)
  | .tuple _ => .error ()

/-- The point format string of `to_state_message`:
`'\x7b0[0]:064x\x7d\x7b0[1]:064x\x7d'.format(val)` — subscript the value at 0
and 1 and format each with `064x`. -/
def fmt_point_str (v : PyVal) : Except Unit String := do
  let a ← pyGetItem v 0
  let s1 ← pyFormat064x a
  let b ← pyGetItem v 1
  let s2 ← pyFormat064x b
  .ok (s1 ++ s2)

/-- A `CurvePoint` column value as a Python value: a pair of ints. -/
def pointPyVal (pt : ℕ × ℕ) : PyVal := .tuple [.int pt.1, .int pt.2]

/-- A `CurvePointTuple` column value as a Python value: a tuple of pairs. -/
def vpsPyVal (l : List (ℕ × ℕ)) : PyVal := .tuple (l.map pointPyVal)

/-- The persisted columns of an `ECDKGParticipant` that its
`to_state_message` (lines 352–360) reads. -/
structure ParticipantState where
  encryption_key_part : Option (ℕ × ℕ) := none
  verification_points : Option (List (ℕ × ℕ)) := none
deriving DecidableEq, Repr

/-- `ECDKGParticipant.to_state_message` (lines 352–360): for each of the two
attributes, if the column is set, format it with the single-point format
string.  The `address` argument of the source is unused. -/
def participant_to_state_message (p : ParticipantState) :
    Except Unit (List (String × String)) := do
  let m1 ←
    match p.encryption_key_part with
    | none => pure []
    | some pt => do
      let s ← fmt_point_str (pointPyVal pt)
      pure [("encryption_key_part", s)]
  match p.verification_points with
  | none => pure m1
  | some vps => do
    let s ← fmt_point_str (vpsPyVal vps)
    pure (m1 ++ [("verification_points", s)])

/-- A value of the session state message. -/
inductive MsgVal where
  | str : String → MsgVal
  | nat : ℕ → MsgVal
  | dict : List (String × List (String × String)) → MsgVal
  | strs : List String → MsgVal
deriving DecidableEq, Repr

/-- The columns of an `ECDKG` session that its `to_state_message`
(lines 294–315) reads, at coordinate level, together with the module global
`own_address`.  The phase is carried by its numeric value. -/
structure SessionState where
  own_address : ℕ
  decryption_condition : Option String := none
  phase : Option ℕ := none
  threshold : Option ℕ := none
  participants : List (ℕ × ParticipantState) := []
  encryption_key : Option (ℕ × ℕ) := none
  encryption_key_part : Option (ℕ × ℕ) := none
  verification_points : Option (List (ℕ × ℕ)) := none
deriving DecidableEq, Repr

/-- The `participants` entry of `ECDKG.to_state_message` (line 304):
address-keyed snapshots of all participants; a participant whose snapshot
raises propagates the exception. -/
def participants_dict : List (ℕ × ParticipantState) →
    Except Unit (List (String × List (String × String)))
  | [] => .ok []
  | ap :: rest => do
    let m ← participant_to_state_message ap.2
    let rest' ← participants_dict rest
    .ok ((format040x ap.1, m) :: rest')

/-- `ECDKG.to_state_message` (lines 294–315): own address, the scalar
attributes that are set, the per-participant snapshots, the point attributes
that are set, and the verification points formatted one by one. -/
def ecdkg_to_state_message (s : SessionState) : Except Unit (List (String × MsgVal)) := do
  let base := [("address", MsgVal.str (format040x s.own_address))]
  let base := base ++
    (match s.decryption_condition with
     | some c => [("decryption_condition", MsgVal.str c)]
     | none => []) ++
    (match s.phase with
     | some ph => [("phase", MsgVal.nat ph)]
     | none => []) ++
    (match s.threshold with
     | some t => [("threshold", MsgVal.nat t)]
     | none => [])
  let pd ← participants_dict s.participants
  let base := base ++ [("participants", MsgVal.dict pd)]
  let base := base ++
    (match s.encryption_key with
     | some pt =>
       match fmt_point_str (pointPyVal pt) with
       | .ok str => [("encryption_key", MsgVal.str str)]
       | .error _ => []
     | none => [])
  let ek2 ←
    match s.encryption_key_part with
    | some pt => do
      let str ← fmt_point_str (pointPyVal pt)
      pure [("encryption_key_part", MsgVal.str str)]
    | none => pure ([] : List (String × MsgVal))
  let base := base ++ ek2
  match s.verification_points with
  | some vpts => do
    let strs ← vpts.mapM (fun pt => fmt_point_str (pointPyVal pt))
    pure (base ++ [("verification_points", MsgVal.strs strs)])
  | none => pure base

end Wire

namespace Db

/-!
Model of the complaint query `ECDKG.get_complaints_by` (lines 285–292) over
the persisted tables.  A complaint row carries its `participant_id` foreign
key; the participant row carries its session (`ecdkg_id`).  The filter on
`participant.ecdkg_id == self.id` is commented out in the source.
-/

/-- An `ECDKGComplaint` row. -/
structure ECDKGComplaintRow where
  participant_id : ℕ
  complainer_address : ℕ
deriving DecidableEq, Repr

/-- An `ECDKGParticipant` row, as far as the query joins care. -/
structure ECDKGParticipantRow where
  id : ℕ
  ecdkg_id : ℕ
  eth_address : ℕ
deriving DecidableEq, Repr

/-- The persisted tables the query ranges over. -/
structure Database where
  participants : List ECDKGParticipantRow := []
  complaints : List ECDKGComplaintRow := []

/-- `ECDKG.get_complaints_by(address)` (lines 285–292): all complaint rows
whose `complainer_address` equals `address`.  `self_id` is the id of the
session the method is called on; the session filter appears only as a
comment in the source, so the query does not use it. -/
def get_complaints_by (db : Database) (_self_id : ℕ) (address : ℕ) :
    List ECDKGComplaintRow :=
  db.complaints.filter (fun c => c.complainer_address == address)

end Db

/-!
Shared lemmas about the phase handlers.
-/

theorem phase_after_uninitialized (inp : PhaseInputs) (s s' : ECDKG)
    (h : handle_uninitialized_phase inp s = .ok s') : s'.phase = .key_distribution := by
  unfold handle_uninitialized_phase at h
  dsimp only [] at h
  split at h
  · exact absurd h (by simp)
  · cases h; rfl

theorem phase_after_key_distribution (inp : PhaseInputs) (s s' : ECDKG)
    (h : handle_key_distribution_phase inp s = .ok s') : s'.phase = .key_verification := by
  cases h; rfl

theorem phase_after_key_verification (inp : PhaseInputs) (s s' : ECDKG)
    (h : handle_key_verification_phase inp s = .ok s') : s'.phase = .key_check := by
  unfold handle_key_verification_phase at h
  split at h
  · exact absurd h (by simp)
  · cases h; rfl

theorem phase_after_key_check (inp : PhaseInputs) (s s' : ECDKG)
    (h : handle_key_check_phase inp s = .ok s') : s'.phase = .key_generation := by
  cases h; rfl

theorem phase_after_key_generation (inp : PhaseInputs) (s s' : ECDKG)
    (h : handle_key_generation_phase inp s = .ok s') : s'.phase = .key_publication := by
  unfold handle_key_generation_phase at h
  split at h
  · exact absurd h (by simp)
  · split at h
    · exact absurd h (by simp)
    · split at h
      · exact absurd h (by simp)
      · cases h; rfl

theorem phase_after_key_publication (inp : PhaseInputs) (s s' : ECDKG)
    (h : handle_key_publication_phase inp s = .ok s') : s'.phase = .complete := by
  unfold handle_key_publication_phase at h
  split at h
  · exact absurd h (by simp)
  · split at h
    · exact absurd h (by simp)
    · split at h
      · exact absurd h (by simp)
      · exact absurd h (by simp)
      · cases h; rfl

theorem handle_phase_ok_step (inp : PhaseInputs) (s s' : ECDKG)
    (h : handle_phase inp s = .ok s') : s'.phase.toNat = s.phase.toNat + 1 := by
  cases hp : s.phase <;> rw [handle_phase, hp] at h
  · rw [phase_after_uninitialized inp s s' h]; rfl
  · rw [phase_after_key_distribution inp s s' h]; rfl
  · rw [phase_after_key_verification inp s s' h]; rfl
  · rw [phase_after_key_check inp s s' h]; rfl
  · rw [phase_after_key_generation inp s s' h]; rfl
  · rw [phase_after_key_publication inp s s' h]; rfl
  · exact absurd h (by simp)

theorem run_until_phase_ok (fuel : ℕ) (inp : PhaseInputs) (t : ECDKGPhase) (s s' : ECDKG)
    (h : run_until_phase fuel inp t s = .ok s') :
    s.phase.toNat ≤ s'.phase.toNat ∧ t.toNat ≤ s'.phase.toNat ∧
      (t.toNat ≤ s.phase.toNat → s' = s) := by
  induction fuel generalizing s with
  | zero =>
    rw [run_until_phase] at h
    split at h
    · exact absurd h (by simp)
    · cases h
      refine ⟨le_rfl, by omega, fun _ => rfl⟩
  | succ fuel ih =>
    rw [run_until_phase] at h
    split at h
    · rename_i hlt
      cases hh : handle_phase inp s with
      | error e => rw [hh] at h; exact absurd h (by simp)
      | ok s1 =>
        rw [hh] at h
        have hstep := handle_phase_ok_step inp s s1 hh
        have := ih s1 h
        exact ⟨by omega, this.2.1, fun hc => by omega⟩
    · rename_i hge
      cases h
      exact ⟨le_rfl, by omega, fun _ => rfl⟩

theorem random_polynomial_length (order : ℕ) (draw : ℕ → ℕ) :
    (random_polynomial order draw).length = order := by
  simp [random_polynomial]

/-- Inputs with no peer responses at all, four connected channels and a
constant RNG stream; used to instantiate theorems at concrete values. -/
def null_inputs : PhaseInputs where
  own_address := 7
  G2 := 2
  channels := [1, 2, 3, 4]
  draw1 := fun _ => 1
  draw2 := fun _ => 1
  recover := fun _ _ => .error ()
  signed_secret_shares := fun _ => none
  verification_points_resp := fun _ => none
  encryption_key_parts := fun _ => none
  dec_key_parts := fun _ => none

/-- A fresh session, as created by `get_or_create_by_decryption_condition`. -/
def fresh_session : ECDKG := { decryption_condition := "cond" }

/-- C8: across the lifetime of a session, `phase` never decreases: every
phase handler that returns normally sets `phase` to the strictly next value
of the ordered enumeration, and `run_until_phase` invokes handlers only
while `session.phase < target_phase` (if the target is already reached it
returns the session untouched), so on normal return
`session.phase ≥ target_phase`. -/
theorem claim_phase_monotonicity :
    (∀ inp s s', handle_phase inp s = .ok s' → s'.phase.toNat = s.phase.toNat + 1) ∧
    (∀ fuel inp t s s', run_until_phase fuel inp t s = .ok s' →
      s.phase.toNat ≤ s'.phase.toNat ∧ t.toNat ≤ s'.phase.toNat ∧
        (t.toNat ≤ s.phase.toNat → s' = s)) :=
  ⟨handle_phase_ok_step, run_until_phase_ok⟩

theorem claim_phase_monotonicity_witness :
    ∃ s', run_until_phase 1 null_inputs .key_distribution fresh_session = .ok s' ∧
      ECDKGPhase.key_distribution.toNat ≤ s'.phase.toNat ∧
      fresh_session.phase.toNat ≤ s'.phase.toNat := by
  refine ⟨_, rfl, ?_, ?_⟩
  · exact (claim_phase_monotonicity.2 1 null_inputs .key_distribution fresh_session _ rfl).2.1
  · exact (claim_phase_monotonicity.2 1 null_inputs .key_distribution fresh_session _ rfl).1

/-- C9: `get_complaints_by(address)` returns every stored complaint whose
`complainer_address` equals the given address, across all sessions: the
result is characterised without any condition on the complaint's session,
and is literally independent of the session the method is called on. -/
theorem claim_get_complaints_by_unscoped :
    (∀ (db : Db.Database) (self_id address : ℕ) (c : Db.ECDKGComplaintRow),
      c ∈ Db.get_complaints_by db self_id address ↔
        c ∈ db.complaints ∧ c.complainer_address = address) ∧
    (∀ (db : Db.Database) (id1 id2 address : ℕ),
      Db.get_complaints_by db id1 address = Db.get_complaints_by db id2 address) := by
  constructor
  · intro db self_id address c
    simp [Db.get_complaints_by, List.mem_filter]
  · intro db id1 id2 address
    rfl

/-- C6: the `Uninitialized` handler sets
`threshold = ⌈0.5 · (n + 1)⌉` where `n` is the number of participant
records (peers only, excluding self), and the generated `secret_poly1`,
`secret_poly2` and `verification_points` tuples each have exactly
`threshold` elements. -/
theorem claim_uninitialized_threshold (inp : PhaseInputs) (s s' : ECDKG)
    (h : handle_uninitialized_phase inp s = .ok s') :
    s'.threshold = some (threshold_formula s'.participants.length) ∧
    threshold_formula s'.participants.length =
      Nat.ceil ((1 / 2 : ℚ) * (s'.participants.length + 1)) ∧
    (∃ l1, s'.secret_poly1 = some l1 ∧ l1.length = threshold_formula s'.participants.length) ∧
    (∃ l2, s'.secret_poly2 = some l2 ∧ l2.length = threshold_formula s'.participants.length) ∧
    (∃ vps, s'.verification_points = some vps ∧
      vps.length = threshold_formula s'.participants.length) := by
  unfold handle_uninitialized_phase at h
  dsimp only [] at h
  split at h
  · exact absurd h (by simp)
  · rename_i c0 tail heq
    cases h
    refine ⟨rfl, (threshold_formula_eq_ceil _).symm ▸ rfl, ⟨_, rfl, ?_⟩, ⟨_, rfl, ?_⟩, ⟨_, rfl, ?_⟩⟩
    all_goals simp [random_polynomial_length, List.length_zipWith]

theorem claim_uninitialized_threshold_witness :
    ∃ s', handle_uninitialized_phase null_inputs fresh_session = .ok s' ∧
      s'.participants.length = 4 ∧ s'.threshold = some 3 ∧
      s'.threshold = some (threshold_formula s'.participants.length) := by
  refine ⟨_, rfl, rfl, rfl, ?_⟩
  exact (claim_uninitialized_threshold null_inputs fresh_session _ rfl).1

theorem set_ekp_error_imp_missing (resp : ℕ → Option secp256k1.Point)
    (ps ps' : List ECDKGParticipant) (h : set_encryption_key_parts resp ps = .error ps') :
    ∃ p ∈ ps, resp p.eth_address = none := by
  induction ps generalizing ps' with
  | nil => exact absurd h (by simp [set_encryption_key_parts])
  | cons p rest ih =>
    rw [set_encryption_key_parts] at h
    cases hr : resp p.eth_address with
    | none => exact ⟨p, by simp, hr⟩
    | some e =>
      rw [hr] at h
      cases hs : set_encryption_key_parts resp rest with
      | ok rest' => rw [hs] at h; exact absurd h (by simp)
      | error rest' =>
        rw [hs] at h
        obtain ⟨q, hq, hqr⟩ := ih rest' hs
        exact ⟨q, by simp [hq], hqr⟩

theorem set_ekp_error_of_missing (resp : ℕ → Option secp256k1.Point)
    (ps : List ECDKGParticipant) (p : ECDKGParticipant) (hp : p ∈ ps)
    (hr : resp p.eth_address = none) :
    ∃ ps', set_encryption_key_parts resp ps = .error ps' := by
  induction ps with
  | nil => cases hp
  | cons q rest ih =>
    rw [set_encryption_key_parts]
    cases hq : resp q.eth_address with
    | none => exact ⟨q :: rest, rfl⟩
    | some e =>
      rcases List.mem_cons.mp hp with hpq | hprest
      · subst hpq; rw [hq] at hr; cases hr
      · obtain ⟨ps'', hps''⟩ := ih hprest
        rw [hps'']
        exact ⟨_, rfl⟩

theorem set_dkp_error_imp_missing (resp : ℕ → Option ℕ)
    (ps ps' : List ECDKGParticipant) (h : set_decryption_key_parts resp ps = .error ps') :
    ∃ p ∈ ps, resp p.eth_address = none := by
  induction ps generalizing ps' with
  | nil => exact absurd h (by simp [set_decryption_key_parts])
  | cons p rest ih =>
    rw [set_decryption_key_parts] at h
    cases hr : resp p.eth_address with
    | none => exact ⟨p, by simp, hr⟩
    | some e =>
      rw [hr] at h
      cases hs : set_decryption_key_parts resp rest with
      | ok rest' => rw [hs] at h; exact absurd h (by simp)
      | error rest' =>
        rw [hs] at h
        obtain ⟨q, hq, hqr⟩ := ih rest' hs
        exact ⟨q, by simp [hq], hqr⟩

theorem set_dkp_error_of_missing (resp : ℕ → Option ℕ)
    (ps : List ECDKGParticipant) (p : ECDKGParticipant) (hp : p ∈ ps)
    (hr : resp p.eth_address = none) :
    ∃ ps', set_decryption_key_parts resp ps = .error ps' := by
  induction ps with
  | nil => cases hp
  | cons q rest ih =>
    rw [set_decryption_key_parts]
    cases hq : resp q.eth_address with
    | none => exact ⟨q :: rest, rfl⟩
    | some e =>
      rcases List.mem_cons.mp hp with hpq | hprest
      · subst hpq; rw [hq] at hr; cases hr
      · obtain ⟨ps'', hps''⟩ := ih hprest
        rw [hps'']
        exact ⟨_, rfl⟩

theorem key_generation_error_phase (inp : PhaseInputs) (s s₂ : ECDKG) (e : PyErr)
    (h : handle_key_generation_phase inp s = .error (e, s₂)) : s₂.phase = s.phase := by
  unfold handle_key_generation_phase at h
  split at h
  · cases h; rfl
  · split at h
    · cases h; rfl
    · split at h
      · cases h; rfl
      · exact absurd h (by simp)

theorem key_publication_error_phase (inp : PhaseInputs) (s s₂ : ECDKG) (e : PyErr)
    (h : handle_key_publication_phase inp s = .error (e, s₂)) : s₂.phase = s.phase := by
  unfold handle_key_publication_phase at h
  split at h
  · cases h; rfl
  · split at h
    · cases h; rfl
    · split at h
      · cases h; rfl
      · cases h; rfl
      · exact absurd h (by simp)

theorem key_generation_protocol_error_iff (inp : PhaseInputs) (s : ECDKG) :
    (∃ s₂, handle_key_generation_phase inp s = .error (.protocolError, s₂)) ↔
      ∃ p ∈ s.participants, inp.encryption_key_parts p.eth_address = none := by
  constructor
  · rintro ⟨s₂, h⟩
    unfold handle_key_generation_phase at h
    split at h
    · rename_i ps' hset
      exact set_ekp_error_imp_missing _ _ _ hset
    · split at h
      · exact absurd h (by simp)
      · split at h
        · exact absurd h (by simp)
        · exact absurd h (by simp)
  · rintro ⟨p, hp, hr⟩
    obtain ⟨ps', hps'⟩ := set_ekp_error_of_missing _ _ p hp hr
    exact ⟨_, by unfold handle_key_generation_phase; rw [hps']⟩

theorem key_publication_protocol_error_iff (inp : PhaseInputs) (s : ECDKG) :
    (∃ s₂, handle_key_publication_phase inp s = .error (.protocolError, s₂)) ↔
      ∃ p ∈ s.participants, inp.dec_key_parts p.eth_address = none := by
  constructor
  · rintro ⟨s₂, h⟩
    unfold handle_key_publication_phase at h
    split at h
    · rename_i ps' hset
      exact set_dkp_error_imp_missing _ _ _ hset
    · split at h
      · exact absurd h (by simp)
      · split at h
        · exact absurd h (by simp)
        · exact absurd h (by simp)
        · exact absurd h (by simp)
  · rintro ⟨p, hp, hr⟩
    obtain ⟨ps', hps'⟩ := set_dkp_error_of_missing _ _ p hp hr
    exact ⟨_, by unfold handle_key_publication_phase; rw [hps']⟩

/-- C4: the `KeyGeneration` handler raises `ProtocolError` exactly when some
participant's `encryption_key_part` response is missing, the
`KeyPublication` handler raises `ProtocolError` exactly when some
participant's `decryption_key_part` response is missing, and on any handler
error the session's `phase` field still holds its pre-advance value, so a
retry of `run_until_phase` is possible. -/
theorem claim_protocol_error_iff_missing :
    (∀ inp s, (∃ s₂, handle_key_generation_phase inp s = .error (.protocolError, s₂)) ↔
      ∃ p ∈ s.participants, inp.encryption_key_parts p.eth_address = none) ∧
    (∀ inp s s₂ e, handle_key_generation_phase inp s = .error (e, s₂) → s₂.phase = s.phase) ∧
    (∀ inp s, (∃ s₂, handle_key_publication_phase inp s = .error (.protocolError, s₂)) ↔
      ∃ p ∈ s.participants, inp.dec_key_parts p.eth_address = none) ∧
    (∀ inp s s₂ e, handle_key_publication_phase inp s = .error (e, s₂) → s₂.phase = s.phase) :=
  ⟨key_generation_protocol_error_iff,
   fun inp s s₂ e h => key_generation_error_phase inp s s₂ e h,
   key_publication_protocol_error_iff,
   fun inp s s₂ e h => key_publication_error_phase inp s s₂ e h⟩

/-- A session as it stands on entry to `KeyGeneration`: one participant, no
responses received yet. -/
def stalled_session : ECDKG :=
  { decryption_condition := "cond", phase := .key_generation,
    participants := [{ eth_address := 3 }],
    secret_poly1 := some [11], secret_poly2 := some [1],
    encryption_key_part := some (secp256k1.multiply secp256k1.G 11) }

theorem claim_protocol_error_iff_missing_witness :
    (∃ s₂, handle_key_generation_phase null_inputs stalled_session =
        .error (.protocolError, s₂) ∧ s₂.phase = stalled_session.phase) ∧
    (∃ s₂, handle_key_publication_phase null_inputs stalled_session =
        .error (.protocolError, s₂) ∧ s₂.phase = stalled_session.phase) := by
  constructor
  · obtain ⟨s₂, h⟩ := (claim_protocol_error_iff_missing.1 null_inputs stalled_session).mpr
      ⟨{ eth_address := 3 }, by simp [stalled_session], rfl⟩
    exact ⟨s₂, h, claim_protocol_error_iff_missing.2.1 null_inputs stalled_session s₂ _ h⟩
  · obtain ⟨s₂, h⟩ := (claim_protocol_error_iff_missing.2.2.1 null_inputs stalled_session).mpr
      ⟨{ eth_address := 3 }, by simp [stalled_session], rfl⟩
    exact ⟨s₂, h, claim_protocol_error_iff_missing.2.2.2 null_inputs stalled_session s₂ _ h⟩

theorem except_bind_ok {α β ε : Type} (a : α) (f : α → Except ε β) :
    (Except.ok a >>= f) = f a := rfl

theorem except_bind_err {α β ε : Type} (e : ε) (f : α → Except ε β) :
    ((Except.error e : Except ε α) >>= f) = .error e := rfl

theorem except_pure_eq_ok {α ε : Type} (a : α) : (pure a : Except ε α) = .ok a := rfl

theorem fmt_point_str_pair (pt : ℕ × ℕ) :
    Wire.fmt_point_str (Wire.pointPyVal pt) =
      .ok (Wire.format064x pt.1 ++ Wire.format064x pt.2) := rfl

theorem fmt_point_str_tuple_error (l : List (ℕ × ℕ)) :
    Wire.fmt_point_str (Wire.vpsPyVal l) = .error () := by
  cases l <;> rfl

theorem participant_message_error_of_vpoints (p : Wire.ParticipantState)
    (h : p.verification_points.isSome) :
    Wire.participant_to_state_message p = .error () := by
  obtain ⟨vps, hvps⟩ := Option.isSome_iff_exists.mp h
  cases hek : p.encryption_key_part <;>
    simp [Wire.participant_to_state_message, hek, hvps, fmt_point_str_tuple_error,
      fmt_point_str_pair, except_bind_ok, except_bind_err]

theorem participant_message_ok_of_no_vpoints (p : Wire.ParticipantState)
    (h : p.verification_points = none) :
    (p.encryption_key_part = none → Wire.participant_to_state_message p = .ok []) ∧
    (∀ pt, p.encryption_key_part = some pt → Wire.participant_to_state_message p =
      .ok [("encryption_key_part", Wire.format064x pt.1 ++ Wire.format064x pt.2)]) := by
  constructor
  · intro hek
    simp [Wire.participant_to_state_message, hek, h, except_pure_eq_ok, except_bind_ok]
  · intro pt hek
    simp [Wire.participant_to_state_message, hek, h, fmt_point_str_pair, except_bind_ok,
      except_pure_eq_ok]

theorem participants_dict_error_of_vpoints (ps : List (ℕ × Wire.ParticipantState))
    (h : ∃ ap ∈ ps, (ap.2).verification_points.isSome) :
    ∃ e, Wire.participants_dict ps = .error e := by
  induction ps with
  | nil => simp at h
  | cons ap rest ih =>
    rcases h with ⟨bp, hbp, hvp⟩
    rcases List.mem_cons.mp hbp with hb | hb
    · subst hb
      refine ⟨(), ?_⟩
      rw [Wire.participants_dict]
      simp [participant_message_error_of_vpoints bp.2 hvp, except_bind_err]
    · obtain ⟨e, he⟩ := ih ⟨bp, hb, hvp⟩
      cases hm : Wire.participant_to_state_message ap.2 with
      | error e2 =>
        exact ⟨e2, by rw [Wire.participants_dict]; simp [hm, except_bind_err]⟩
      | ok m =>
        exact ⟨e, by rw [Wire.participants_dict]; simp [hm, he, except_bind_ok,
          except_bind_err]⟩

/-- C10: `ECDKGParticipant.to_state_message` raises (rather than returning a
snapshot) exactly when the participant's `verification_points` column is
set, because the tuple of points is fed to the single-point format string;
consequently `ECDKG.to_state_message` fails for any session in which some
participant's verification points have been persisted, and a successful
participant entry contains at most the `encryption_key_part` field. -/
theorem claim_participant_state_message_raises :
    (∀ p : Wire.ParticipantState,
      (∃ e, Wire.participant_to_state_message p = .error e) ↔
        p.verification_points.isSome) ∧
    (∀ (p : Wire.ParticipantState) m, Wire.participant_to_state_message p = .ok m →
      m = [] ∨ ∃ str, m = [("encryption_key_part", str)]) ∧
    (∀ s : Wire.SessionState, (∃ ap ∈ s.participants, (ap.2).verification_points.isSome) →
      ∃ e, Wire.ecdkg_to_state_message s = .error e) := by
  refine ⟨fun p => ⟨fun ⟨e, he⟩ => ?_, fun h => ⟨(), participant_message_error_of_vpoints p h⟩⟩,
    fun p m hm => ?_, fun s hs => ?_⟩
  · by_contra hnone
    rw [Option.not_isSome_iff_eq_none] at hnone
    cases hek : p.encryption_key_part with
    | none =>
      rw [(participant_message_ok_of_no_vpoints p hnone).1 hek] at he
      cases he
    | some pt =>
      rw [(participant_message_ok_of_no_vpoints p hnone).2 pt hek] at he
      cases he
  · cases hvp : p.verification_points with
    | some vps =>
      rw [participant_message_error_of_vpoints p (by simp [hvp])] at hm
      cases hm
    | none =>
      cases hek : p.encryption_key_part with
      | none =>
        rw [(participant_message_ok_of_no_vpoints p hvp).1 hek] at hm
        cases hm
        exact Or.inl rfl
      | some pt =>
        rw [(participant_message_ok_of_no_vpoints p hvp).2 pt hek] at hm
        cases hm
        exact Or.inr ⟨_, rfl⟩
  · obtain ⟨e, he⟩ := participants_dict_error_of_vpoints s.participants hs
    exact ⟨e, by rw [Wire.ecdkg_to_state_message]; simp [he, except_bind_err]⟩

/-- A participant whose verification points were persisted. -/
def verified_participant : Wire.ParticipantState :=
  { encryption_key_part := some (2, 3), verification_points := some [(1, 1)] }

/-- A participant holding only an encryption key part. -/
def plain_participant : Wire.ParticipantState :=
  { encryption_key_part := some (2, 3) }

/-- A session snapshot containing a participant with persisted verification
points. -/
def verified_session : Wire.SessionState :=
  { own_address := 9, participants := [(3, verified_participant)] }

theorem claim_participant_state_message_raises_witness :
    (∃ e, Wire.participant_to_state_message verified_participant = .error e) ∧
    (∃ m, Wire.participant_to_state_message plain_participant = .ok m ∧
      (m = [] ∨ ∃ str, m = [("encryption_key_part", str)])) ∧
    (∃ e, Wire.ecdkg_to_state_message verified_session = .error e) := by
  refine ⟨claim_participant_state_message_raises.1 verified_participant |>.mpr (by decide),
    ⟨_, rfl, claim_participant_state_message_raises.2.1 plain_participant _ rfl⟩,
    claim_participant_state_message_raises.2.2 verified_session ?_⟩
  exact ⟨(3, verified_participant), by simp [verified_session], by decide⟩



theorem store_vp_ok_behaviour (resp : ℕ → Option (List String))
    (ps : List Wire.ParticipantVP) :
    ∀ ps', Wire.store_verification_points resp ps = .ok ps' →
      ps'.length = ps.length ∧
      ∀ i (h1 : i < ps.length) (h2 : i < ps'.length),
        ps'[i].eth_address = ps[i].eth_address ∧
        (resp ps[i].eth_address = none → ps'[i] = ps[i]) ∧
        (∀ strs, resp ps[i].eth_address = some strs →
          ∃ pts, Wire.parse_vpoints strs = some pts ∧
            ps'[i] = { ps[i] with verification_points := some pts }) := by
  induction ps with
  | nil =>
    intro ps' h
    rw [Wire.store_verification_points] at h
    cases h
    exact ⟨rfl, fun i h1 _ => absurd h1 (by simp)⟩
  | cons p rest ih =>
    intro ps' h
    rw [Wire.store_verification_points] at h
    split at h
    · rename_i hr
      split at h
      · rename_i rest' hs
        cases h
        obtain ⟨hlen, hidx⟩ := ih rest' hs
        refine ⟨by simp [hlen], ?_⟩
        intro i h1 h2
        cases i with
        | zero =>
          exact ⟨rfl, fun _ => rfl, fun strs hstrs => absurd hstrs (by simp [hr])⟩
        | succ j =>
          exact hidx j (by simpa using h1) (by simpa [hlen] using h2)
      · cases h
    · rename_i strs0 hr
      split at h
      · cases h
      · rename_i pts0 hp
        split at h
        · rename_i rest' hs
          cases h
          obtain ⟨hlen, hidx⟩ := ih rest' hs
          refine ⟨by simp [hlen], ?_⟩
          intro i h1 h2
          cases i with
          | zero =>
            refine ⟨rfl, fun hnone => absurd hnone (by simp [hr]), fun strs hstrs => ?_⟩
            have hstrs' : strs0 = strs := by
              have : some strs0 = some strs := by rw [← hr]; exact hstrs
              exact Option.some.inj this
            subst hstrs'
            exact ⟨pts0, hp, rfl⟩
          | succ j =>
            exact hidx j (by simpa using h1) (by simpa [hlen] using h2)
        · cases h

theorem store_vp_error_iff (resp : ℕ → Option (List String))
    (ps : List Wire.ParticipantVP) :
    (∃ e, Wire.store_verification_points resp ps = .error e) ↔
      ∃ p ∈ ps, ∃ strs, resp p.eth_address = some strs ∧
        Wire.parse_vpoints strs = none := by
  induction ps with
  | nil => simp [Wire.store_verification_points]
  | cons p rest ih =>
    rw [Wire.store_verification_points]
    constructor
    · rintro ⟨e, he⟩
      split at he
      · rename_i hr
        split at he
        · cases he
        · rename_i e2 hs
          cases he
          obtain ⟨q, hq, hqs⟩ := ih.mp ⟨e2, hs⟩
          exact ⟨q, by simp [hq], hqs⟩
      · rename_i strs0 hr
        split at he
        · rename_i hp
          exact ⟨p, by simp, strs0, hr, hp⟩
        · rename_i pts0 hp
          split at he
          · cases he
          · rename_i e2 hs
            cases he
            obtain ⟨q, hq, hqs⟩ := ih.mp ⟨e2, hs⟩
            exact ⟨q, by simp [hq], hqs⟩
    · rintro ⟨q, hq, strs, hqs, hps⟩
      rcases List.mem_cons.mp hq with hq0 | hq0
      · subst hq0
        exact ⟨(), by simp only [hqs, hps]⟩
      · obtain ⟨e, he⟩ := ih.mpr ⟨q, hq0, strs, hqs, hps⟩
        cases hr : resp p.eth_address with
        | none => exact ⟨e, by simp only [hr, he]⟩
        | some strs2 =>
          cases hp2 : Wire.parse_vpoints strs2 with
          | none => exact ⟨(), by simp only [hr, hp2]⟩
          | some pts2 => exact ⟨e, by simp only [hr, hp2, he]⟩

/-- A verification-point wire string whose decoded coordinates are `(1, 1)`,
a pair that does not lie on the secp256k1 curve. -/
def offcurve_response_str : String :=
  "00000000000000000000000000000000000000000000000000000000000000010000000000000000000000000000000000000000000000000000000000000001"

/-- C3 counterexample: a verification-points response containing an
off-curve point is not dropped — the handler persists the raw pair `(1, 1)`
on the participant even though `(1, 1)` fails the curve equation, so the
participant's `verification_points` do not remain unset. -/
theorem claim_vpoints_validation_counterexample :
    Wire.store_verification_points (fun _ => some [offcurve_response_str])
        [{ eth_address := 5 }] =
      .ok [{ eth_address := 5, verification_points := some [(1, 1)] }] ∧
    Wire.is_on_curve (1, 1) = false := by
  constructor
  · rfl
  · decide

/-- C3 (amended): in the `KeyDistribution` phase each peer's
verification-points response is parsed into a tuple of coordinate pairs (one
pair per 128-hex-digit string, with no check of the tuple's length against
the threshold and no on-curve validation) and persisted as-is on the
Participant; a missing response leaves the Participant's
`verification_points` unset with a warning, and a response whose hex fails
to parse raises `ValueError` out of the handler. -/
theorem claim_vpoints_parsed_without_validation :
    (∀ resp (ps ps' : List Wire.ParticipantVP),
      Wire.store_verification_points resp ps = .ok ps' →
      ps'.length = ps.length ∧
      ∀ i (h1 : i < ps.length) (h2 : i < ps'.length),
        ps'[i].eth_address = ps[i].eth_address ∧
        (resp ps[i].eth_address = none → ps'[i] = ps[i]) ∧
        (∀ strs, resp ps[i].eth_address = some strs →
          ∃ pts, Wire.parse_vpoints strs = some pts ∧
            ps'[i] = { ps[i] with verification_points := some pts })) ∧
    (∀ resp (ps : List Wire.ParticipantVP),
      (∃ e, Wire.store_verification_points resp ps = .error e) ↔
        ∃ p ∈ ps, ∃ strs, resp p.eth_address = some strs ∧
          Wire.parse_vpoints strs = none) :=
  ⟨fun resp ps ps' => store_vp_ok_behaviour resp ps ps', store_vp_error_iff⟩

theorem claim_vpoints_parsed_without_validation_witness :
    (∃ ps', Wire.store_verification_points (fun _ => some [offcurve_response_str])
        [{ eth_address := 5 }] = .ok ps' ∧ ps'.length = 1) ∧
    (∃ e, Wire.store_verification_points (fun _ => some ["zz"])
        [{ eth_address := 5 }] = .error e) := by
  constructor
  · have h : Wire.store_verification_points (fun _ => some [offcurve_response_str])
        [{ eth_address := 5 }] =
        .ok [{ eth_address := 5, verification_points := some [(1, 1)] }] := rfl
    exact ⟨_, h, (claim_vpoints_parsed_without_validation.1 _ _ _ h).1⟩
  · exact (claim_vpoints_parsed_without_validation.2 _ _).mpr
      ⟨{ eth_address := 5 }, by simp, ["zz"], rfl, by decide⟩

theorem update_vpoints_preserves_shares (inp : PhaseInputs) (q : ECDKGParticipant) :
    (update_vpoints inp q).eth_address = q.eth_address ∧
    (update_vpoints inp q).secret_share1 = q.secret_share1 ∧
    (update_vpoints inp q).secret_share2 = q.secret_share2 ∧
    (update_vpoints inp q).shares_signature = q.shares_signature := by
  unfold update_vpoints
  split <;> exact ⟨rfl, rfl, rfl, rfl⟩

theorem update_share_eth_address (inp : PhaseInputs) (cond : String) (p : ECDKGParticipant) :
    (update_share inp cond p).eth_address = p.eth_address := by
  unfold update_share
  split
  · rfl
  · split
    · rfl
    · split
      · rfl
      · rfl

theorem update_share_spec (inp : PhaseInputs) (cond : String) (p : ECDKGParticipant) :
    (inp.signed_secret_shares p.eth_address = none → update_share inp cond p = p) ∧
    (∀ sh1 sh2 sg, inp.signed_secret_shares p.eth_address = some ((sh1, sh2), sg) →
      (inp.recover (ss_msg_bytes cond inp.own_address sh1 sh2) sg = .error () →
        update_share inp cond p = p) ∧
      (∀ a, inp.recover (ss_msg_bytes cond inp.own_address sh1 sh2) sg = .ok a →
        (a ≠ p.eth_address → update_share inp cond p = p) ∧
        (a = p.eth_address → update_share inp cond p =
          { p with secret_share1 := some sh1, secret_share2 := some sh2,
                   shares_signature := some sg }))) := by
  refine ⟨fun h => ?_, fun sh1 sh2 sg h => ⟨fun hrec => ?_, fun a hrec =>
    ⟨fun hne => ?_, fun heq => ?_⟩⟩⟩
  · unfold update_share
    simp only [h]
  · unfold update_share
    simp only [h, hrec]
  · unfold update_share
    simp only [h, hrec]
    rw [if_pos (Ne.symm hne)]
  · unfold update_share
    simp only [h, hrec]
    rw [if_neg (fun hc => hc heq.symm)]

/-- C7: in `KeyDistribution` the handler never fails (a missing signed-shares
response is not fatal), and a peer's signed-shares response is discarded —
leaving that Participant's `secret_share1`, `secret_share2` and
`shares_signature` unchanged — exactly when the signature fails to recover
over the canonical message `ss_msg_bytes` or the recovered address differs
from the peer's address; otherwise the two shares and the signature are
persisted on that Participant. -/
theorem claim_shares_signature_gate :
    (∀ inp s, ∃ s', handle_key_distribution_phase inp s = .ok s') ∧
    (∀ inp s s', handle_key_distribution_phase inp s = .ok s' →
      s'.participants.length = s.participants.length ∧
      ∀ i (h1 : i < s.participants.length) (h2 : i < s'.participants.length),
        s'.participants[i].eth_address = s.participants[i].eth_address ∧
        (inp.signed_secret_shares s.participants[i].eth_address = none →
          s'.participants[i].secret_share1 = s.participants[i].secret_share1 ∧
          s'.participants[i].secret_share2 = s.participants[i].secret_share2 ∧
          s'.participants[i].shares_signature = s.participants[i].shares_signature) ∧
        (∀ sh1 sh2 sg,
          inp.signed_secret_shares s.participants[i].eth_address = some ((sh1, sh2), sg) →
          (inp.recover (ss_msg_bytes s.decryption_condition inp.own_address sh1 sh2) sg =
              .error () →
            s'.participants[i].secret_share1 = s.participants[i].secret_share1 ∧
            s'.participants[i].secret_share2 = s.participants[i].secret_share2 ∧
            s'.participants[i].shares_signature = s.participants[i].shares_signature) ∧
          (∀ a, inp.recover (ss_msg_bytes s.decryption_condition inp.own_address sh1 sh2) sg =
              .ok a →
            (a ≠ s.participants[i].eth_address →
              s'.participants[i].secret_share1 = s.participants[i].secret_share1 ∧
              s'.participants[i].secret_share2 = s.participants[i].secret_share2 ∧
              s'.participants[i].shares_signature = s.participants[i].shares_signature) ∧
            (a = s.participants[i].eth_address →
              s'.participants[i].secret_share1 = some sh1 ∧
              s'.participants[i].secret_share2 = some sh2 ∧
              s'.participants[i].shares_signature = some sg)))) := by
  refine ⟨fun inp s => ⟨_, rfl⟩, fun inp s s' h => ?_⟩
  cases h
  refine ⟨by simp, ?_⟩
  intro i h1 h2
  dsimp only [] at h2 ⊢
  simp only [List.getElem_map]
  obtain ⟨hveth, hv1, hv2, hv3⟩ := update_vpoints_preserves_shares inp
    (update_share inp s.decryption_condition s.participants[i])
  obtain ⟨hnone, hsome⟩ := update_share_spec inp s.decryption_condition s.participants[i]
  refine ⟨?_, fun hn => ?_, fun sh1 sh2 sg hs => ⟨fun hrec => ?_, fun a hrec =>
    ⟨fun hne => ?_, fun heq => ?_⟩⟩⟩
  · rw [hveth, update_share_eth_address]
  · rw [hnone hn]
    exact (update_vpoints_preserves_shares inp s.participants[i]).2
  · rw [(hsome sh1 sh2 sg hs).1 hrec]
    exact (update_vpoints_preserves_shares inp s.participants[i]).2
  · rw [((hsome sh1 sh2 sg hs).2 a hrec).1 hne]
    exact (update_vpoints_preserves_shares inp s.participants[i]).2
  · rw [((hsome sh1 sh2 sg hs).2 a hrec).2 heq]
    exact (update_vpoints_preserves_shares inp _).2

/-- Inputs whose signed-shares response carries shares `(4, 5)` with a
signature that recovers to address `3`. -/
def c7_inputs : PhaseInputs where
  own_address := 7
  G2 := 2
  channels := []
  draw1 := fun _ => 1
  draw2 := fun _ => 1
  recover := fun _ _ => .ok 3
  signed_secret_shares := fun _ => some ((4, 5), (1, 2, 3))
  verification_points_resp := fun _ => none
  encryption_key_parts := fun _ => none
  dec_key_parts := fun _ => none

/-- A session in `KeyDistribution` with the single peer `3`. -/
def c7_session : ECDKG :=
  { decryption_condition := "cond", phase := .key_distribution,
    participants := [{ eth_address := 3 }] }

theorem claim_shares_signature_gate_witness :
    ∃ s' p, handle_key_distribution_phase c7_inputs c7_session = .ok s' ∧
      s'.participants.head? = some p ∧
      p.secret_share1 = some 4 ∧ p.secret_share2 = some 5 ∧
      p.shares_signature = some (1, 2, 3) := by
  refine ⟨_, _, rfl, rfl, ?_, ?_, ?_⟩
  · exact ((((claim_shares_signature_gate.2 c7_inputs c7_session _ rfl).2 0 (by decide)
      (by decide)).2.2 4 5 (1, 2, 3) rfl).2 3 rfl).2 rfl |>.1
  · exact ((((claim_shares_signature_gate.2 c7_inputs c7_session _ rfl).2 0 (by decide)
      (by decide)).2.2 4 5 (1, 2, 3) rfl).2 3 rfl).2 rfl |>.2.1
  · exact ((((claim_shares_signature_gate.2 c7_inputs c7_session _ rfl).2 0 (by decide)
      (by decide)).2.2 4 5 (1, 2, 3) rfl).2 3 rfl).2 rfl |>.2.2

theorem key_distribution_preserves (inp : PhaseInputs) (s s' : ECDKG)
    (h : handle_key_distribution_phase inp s = .ok s') :
    s'.secret_poly1 = s.secret_poly1 ∧ s'.secret_poly2 = s.secret_poly2 ∧
    s'.verification_points = s.verification_points ∧ s'.threshold = s.threshold := by
  cases h
  exact ⟨rfl, rfl, rfl, rfl⟩

theorem key_verification_preserves (inp : PhaseInputs) (s s' : ECDKG)
    (h : handle_key_verification_phase inp s = .ok s') :
    s'.secret_poly1 = s.secret_poly1 ∧ s'.secret_poly2 = s.secret_poly2 ∧
    s'.verification_points = s.verification_points ∧ s'.threshold = s.threshold := by
  unfold handle_key_verification_phase at h
  split at h
  · exact absurd h (by simp)
  · cases h
    exact ⟨rfl, rfl, rfl, rfl⟩

theorem key_check_preserves (inp : PhaseInputs) (s s' : ECDKG)
    (h : handle_key_check_phase inp s = .ok s') :
    s'.secret_poly1 = s.secret_poly1 ∧ s'.secret_poly2 = s.secret_poly2 ∧
    s'.verification_points = s.verification_points ∧ s'.threshold = s.threshold := by
  cases h
  exact ⟨rfl, rfl, rfl, rfl⟩

theorem key_generation_preserves (inp : PhaseInputs) (s s' : ECDKG)
    (h : handle_key_generation_phase inp s = .ok s') :
    s'.secret_poly1 = s.secret_poly1 ∧ s'.secret_poly2 = s.secret_poly2 ∧
    s'.verification_points = s.verification_points ∧ s'.threshold = s.threshold := by
  unfold handle_key_generation_phase at h
  split at h
  · exact absurd h (by simp)
  · split at h
    · exact absurd h (by simp)
    · split at h
      · exact absurd h (by simp)
      · cases h
        exact ⟨rfl, rfl, rfl, rfl⟩

theorem key_publication_preserves (inp : PhaseInputs) (s s' : ECDKG)
    (h : handle_key_publication_phase inp s = .ok s') :
    s'.secret_poly1 = s.secret_poly1 ∧ s'.secret_poly2 = s.secret_poly2 ∧
    s'.verification_points = s.verification_points ∧ s'.threshold = s.threshold := by
  unfold handle_key_publication_phase at h
  split at h
  · exact absurd h (by simp)
  · split at h
    · exact absurd h (by simp)
    · split at h
      · exact absurd h (by simp)
      · exact absurd h (by simp)
      · cases h
        exact ⟨rfl, rfl, rfl, rfl⟩

/-- C5: after the `Uninitialized` handler runs, `secret_poly1`,
`secret_poly2` and `verification_points` all have length `threshold` and
`verification_points[k] = secret_poly1[k]·G + secret_poly2[k]·H` for every
`k`; and every later phase handler leaves `secret_poly1`, `secret_poly2`,
`verification_points` and `threshold` unmodified, so the invariant is
preserved for the rest of the session. -/
theorem claim_pedersen_invariant :
    (∀ inp s s', handle_uninitialized_phase inp s = .ok s' →
      ∃ t l1 l2 vps, s'.threshold = some t ∧ s'.secret_poly1 = some l1 ∧
        s'.secret_poly2 = some l2 ∧ s'.verification_points = some vps ∧
        l1.length = t ∧ l2.length = t ∧ vps.length = t ∧
        ∀ k (h1 : k < l1.length) (h2 : k < l2.length) (h3 : k < vps.length),
          vps[k] = secp256k1.add (secp256k1.multiply secp256k1.G l1[k])
            (secp256k1.multiply inp.G2 l2[k])) ∧
    (∀ inp s s',
      (handle_key_distribution_phase inp s = .ok s' ∨
       handle_key_verification_phase inp s = .ok s' ∨
       handle_key_check_phase inp s = .ok s' ∨
       handle_key_generation_phase inp s = .ok s' ∨
       handle_key_publication_phase inp s = .ok s') →
      s'.secret_poly1 = s.secret_poly1 ∧ s'.secret_poly2 = s.secret_poly2 ∧
      s'.verification_points = s.verification_points ∧ s'.threshold = s.threshold) := by
  constructor
  · intro inp s s' h
    unfold handle_uninitialized_phase at h
    dsimp only [] at h
    split at h
    · exact absurd h (by simp)
    · rename_i c0 tail heq
      cases h
      refine ⟨_, _, _, _, rfl, rfl, rfl, rfl, random_polynomial_length _ _,
        random_polynomial_length _ _, ?_, ?_⟩
      · rw [List.length_zipWith, random_polynomial_length, random_polynomial_length, min_self]
      · intro k h1 h2 h3
        exact List.getElem_zipWith
  · intro inp s s' h
    rcases h with h | h | h | h | h
    · exact key_distribution_preserves inp s s' h
    · exact key_verification_preserves inp s s' h
    · exact key_check_preserves inp s s' h
    · exact key_generation_preserves inp s s' h
    · exact key_publication_preserves inp s s' h

theorem claim_pedersen_invariant_witness :
    (∃ s', handle_uninitialized_phase null_inputs fresh_session = .ok s' ∧
      ∃ t l1 l2 vps, s'.threshold = some t ∧ s'.secret_poly1 = some l1 ∧
        s'.secret_poly2 = some l2 ∧ s'.verification_points = some vps ∧
        l1.length = t ∧ l2.length = t ∧ vps.length = t) ∧
    (∃ s', handle_key_check_phase null_inputs stalled_session = .ok s' ∧
      s'.secret_poly1 = stalled_session.secret_poly1 ∧
      s'.verification_points = stalled_session.verification_points) := by
  constructor
  · obtain ⟨t, l1, l2, vps, h1, h2, h3, h4, h5, h6, h7, _⟩ :=
      claim_pedersen_invariant.1 null_inputs fresh_session _ rfl
    exact ⟨_, rfl, t, l1, l2, vps, h1, h2, h3, h4, h5, h6, h7⟩
  · have h := claim_pedersen_invariant.2 null_inputs stalled_session _
      (Or.inr (Or.inr (Or.inl rfl)))
    exact ⟨_, rfl, h.1, h.2.2.1⟩

theorem foldl_add_eq_sum (l : List secp256k1.Point) (init : secp256k1.Point) :
    l.foldl secp256k1.add init = init + l.sum := by
  induction l generalizing init with
  | nil => simp
  | cons a tl ih =>
    rw [List.foldl_cons, List.sum_cons, ih]
    show init + a + tl.sum = init + (a + tl.sum)
    rw [add_assoc]

theorem get_or_create_complaint_count (cs : List (ℕ × ℕ)) (a o : ℕ) :
    (get_or_create_complaint cs a o).count (a, o) = max 1 (cs.count (a, o)) := by
  unfold get_or_create_complaint
  split
  · rename_i hmem
    have hpos : 0 < cs.count (a, o) := List.count_pos_iff.mpr hmem
    omega
  · rename_i hmem
    rw [List.count_append, List.count_eq_zero_of_not_mem hmem]
    simp

theorem get_or_create_complaint_count_other (cs : List (ℕ × ℕ)) (a o : ℕ)
    (c : ℕ × ℕ) (hne : c ≠ (a, o)) :
    (get_or_create_complaint cs a o).count c = cs.count c := by
  unfold get_or_create_complaint
  split
  · rfl
  · rw [List.count_append]
    simp [List.count_singleton', hne]

theorem participant_check_error_iff (own : ℕ) (H : secp256k1.Point) (p : ECDKGParticipant) :
    participant_check own H p = .error () ↔
      (∃ sh1, p.secret_share1 = some sh1) ∧ (∃ sh2, p.secret_share2 = some sh2) ∧
        (p.verification_points = none ∨ p.verification_points = some []) := by
  unfold participant_check
  cases h1 : p.secret_share1 with
  | none => simp
  | some sh1 =>
    cases h2 : p.secret_share2 with
    | none => simp
    | some sh2 =>
      cases hv : p.verification_points with
      | none => simp
      | some vps =>
        cases vps with
        | nil => simp
        | cons v tl => simp [List.enum_cons]

theorem participant_check_ok_true_iff (own : ℕ) (H : secp256k1.Point)
    (p : ECDKGParticipant) :
    participant_check own H p = .ok true ↔
      ∃ sh1 sh2 vps, p.secret_share1 = some sh1 ∧ p.secret_share2 = some sh2 ∧
        p.verification_points = some vps ∧ vps ≠ [] ∧
        secp256k1.add (secp256k1.multiply secp256k1.G sh1) (secp256k1.multiply H sh2) =
          (vps.enum.map (fun kp => secp256k1.multiply kp.2
            (own ^ kp.1 % secp256k1.N))).sum := by
  unfold participant_check
  cases h1 : p.secret_share1 with
  | none => simp
  | some sh1 =>
    cases h2 : p.secret_share2 with
    | none => simp
    | some sh2 =>
      cases hv : p.verification_points with
      | none => simp
      | some vps =>
        cases hm : vps.enum.map (fun kp => secp256k1.multiply kp.2
            (own ^ kp.1 % secp256k1.N)) with
        | nil =>
          have hvnil : vps = [] := by
            cases vps with
            | nil => rfl
            | cons v tl => rw [List.enum_cons] at hm; simp at hm
          subst hvnil
          simp
        | cons v vs =>
          have hvne : vps ≠ [] := by
            intro hc
            subst hc
            simp at hm
          have hsum : (vps.enum.map (fun kp => secp256k1.multiply kp.2
              (own ^ kp.1 % secp256k1.N))).sum = v + vs.sum := by
            rw [hm, List.sum_cons]
          constructor
          · intro h
            simp only [hm, Except.ok.injEq, decide_eq_true_eq] at h
            refine ⟨sh1, sh2, vps, rfl, rfl, rfl, hvne, ?_⟩
            rw [hsum, h, foldl_add_eq_sum]
          · rintro ⟨sh1', sh2', vps', hh1, hh2, hhv, _, heq⟩
            cases hh1
            cases hh2
            cases hhv
            simp only [hm, Except.ok.injEq, decide_eq_true_eq]
            rw [foldl_add_eq_sum, ← hsum]
            exact heq

theorem verification_loop_count_notmem (own : ℕ) (H : secp256k1.Point)
    (ps : List ECDKGParticipant) :
    ∀ acc acc', verification_loop own H ps acc = .ok acc' →
      ∀ a, a ∉ ps.map ECDKGParticipant.eth_address →
        acc'.count (a, own) = acc.count (a, own) := by
  induction ps with
  | nil =>
    intro acc acc' h a _
    cases h
    rfl
  | cons q rest ih =>
    intro acc acc' h a ha
    rw [verification_loop] at h
    have hane : a ≠ q.eth_address := by
      intro hc
      exact ha (by simp [hc])
    have harest : a ∉ rest.map ECDKGParticipant.eth_address := by
      intro hc
      exact ha (by simp [hc])
    split at h
    · cases h
    · exact ih acc acc' h a harest
    · rw [ih _ acc' h a harest]
      exact get_or_create_complaint_count_other acc q.eth_address own (a, own)
        (by simp [hane])

theorem verification_loop_count (own : ℕ) (H : secp256k1.Point)
    (ps : List ECDKGParticipant) :
    ∀ acc acc', verification_loop own H ps acc = .ok acc' →
      (ps.map ECDKGParticipant.eth_address).Nodup →
      ∀ p ∈ ps,
        (participant_check own H p = .ok true →
          acc'.count (p.eth_address, own) = acc.count (p.eth_address, own)) ∧
        (participant_check own H p = .ok false →
          acc'.count (p.eth_address, own) = max 1 (acc.count (p.eth_address, own))) := by
  induction ps with
  | nil =>
    intro acc acc' _ _ p hp
    cases hp
  | cons q rest ih =>
    intro acc acc' h hnodup p hp
    have hqrest : q.eth_address ∉ rest.map ECDKGParticipant.eth_address :=
      (List.nodup_cons.mp hnodup).1
    have hrest : (rest.map ECDKGParticipant.eth_address).Nodup :=
      (List.nodup_cons.mp hnodup).2
    rw [verification_loop] at h
    rcases List.mem_cons.mp hp with hpq | hpr
    · subst hpq
      constructor
      · intro hchk
        rw [hchk] at h
        exact verification_loop_count_notmem own H rest acc acc' h p.eth_address hqrest
      · intro hchk
        rw [hchk] at h
        rw [verification_loop_count_notmem own H rest _ acc' h p.eth_address hqrest]
        exact get_or_create_complaint_count acc p.eth_address own
    · have hpne : p.eth_address ≠ q.eth_address := by
        intro hc
        exact hqrest (by rw [← hc]; exact List.mem_map_of_mem _ hpr)
      split at h
      · cases h
      · exact ih acc acc' h hrest p hpr
      · have := ih _ acc' h hrest p hpr
        rwa [get_or_create_complaint_count_other acc q.eth_address own
          (p.eth_address, own) (by simp [hpne])] at this

theorem verification_loop_error_iff (own : ℕ) (H : secp256k1.Point)
    (ps : List ECDKGParticipant) :
    ∀ acc, (∃ acc'', verification_loop own H ps acc = .error acc'') ↔
      ∃ p ∈ ps, participant_check own H p = .error () := by
  induction ps with
  | nil =>
    intro acc
    simp [verification_loop]
  | cons q rest ih =>
    intro acc
    rw [verification_loop]
    constructor
    · rintro ⟨acc'', h⟩
      split at h
      · rename_i hchk
        exact ⟨q, by simp, hchk⟩
      · obtain ⟨p, hp, hchk⟩ := (ih acc).mp ⟨acc'', h⟩
        exact ⟨p, by simp [hp], hchk⟩
      · obtain ⟨p, hp, hchk⟩ := (ih _).mp ⟨acc'', h⟩
        exact ⟨p, by simp [hp], hchk⟩
    · rintro ⟨p, hp, hchk⟩
      rcases List.mem_cons.mp hp with hpq | hpr
      · subst hpq
        rw [hchk]
        exact ⟨acc, rfl⟩
      · cases hq : participant_check own H q with
        | error e =>
          cases e
          exact ⟨acc, rfl⟩
        | ok b =>
          cases b
          · obtain ⟨acc'', h⟩ := (ih (get_or_create_complaint acc q.eth_address own)).mpr
              ⟨p, hpr, hchk⟩
            exact ⟨acc'', h⟩
          · obtain ⟨acc'', h⟩ := (ih acc).mpr ⟨p, hpr, hchk⟩
            exact ⟨acc'', h⟩

theorem participant_check_ok_false_iff (own : ℕ) (H : secp256k1.Point)
    (p : ECDKGParticipant) :
    participant_check own H p = .ok false ↔
      (p.secret_share1 = none ∨ p.secret_share2 = none) ∨
      ∃ sh1 sh2 vps, p.secret_share1 = some sh1 ∧ p.secret_share2 = some sh2 ∧
        p.verification_points = some vps ∧ vps ≠ [] ∧
        secp256k1.add (secp256k1.multiply secp256k1.G sh1) (secp256k1.multiply H sh2) ≠
          (vps.enum.map (fun kp => secp256k1.multiply kp.2
            (own ^ kp.1 % secp256k1.N))).sum := by
  unfold participant_check
  cases h1 : p.secret_share1 with
  | none => simp
  | some sh1 =>
    cases h2 : p.secret_share2 with
    | none => simp
    | some sh2 =>
      cases hv : p.verification_points with
      | none => simp
      | some vps =>
        cases hm : vps.enum.map (fun kp => secp256k1.multiply kp.2
            (own ^ kp.1 % secp256k1.N)) with
        | nil =>
          have hvnil : vps = [] := by
            cases vps with
            | nil => rfl
            | cons v tl => rw [List.enum_cons] at hm; simp at hm
          subst hvnil
          simp
        | cons v vs =>
          have hvne : vps ≠ [] := by
            intro hc
            subst hc
            simp at hm
          have hsum : (vps.enum.map (fun kp => secp256k1.multiply kp.2
              (own ^ kp.1 % secp256k1.N))).sum = v + vs.sum := by
            rw [hm, List.sum_cons]
          constructor
          · intro h
            simp only [hm, Except.ok.injEq, decide_eq_false_iff_not] at h
            refine Or.inr ⟨sh1, sh2, vps, rfl, rfl, rfl, hvne, ?_⟩
            rw [hsum, ← foldl_add_eq_sum]
            exact h
          · intro h
            rcases h with h | ⟨sh1', sh2', vps', hh1, hh2, hhv, _, hne⟩
            · rcases h with h | h
              · cases h
              · cases h
            · cases hh1
              cases hh2
              cases hhv
              simp only [hm, Except.ok.injEq, decide_eq_false_iff_not]
              rw [foldl_add_eq_sum, ← hsum]
              exact hne

/-- C2 (amended): in the `KeyVerification` phase, for a session whose
participants have pairwise distinct addresses: on normal return the phase is
`key_check` and, for every participant P, if both shares are set,
`P.verification_points` is set and nonempty and
`share1·G + share2·H = Σ_k P.verification_points[k]·(own_address^k mod N)`
then no complaint against P is added, while if either share is missing, or
the shares are set with nonempty verification points and the equation fails,
the complaint by `own_address` against P is recorded with multiplicity
exactly `max 1 (previous multiplicity)` (so re-running never creates a
second row, by `get_or_create_complaint`); but the handler raises a
`TypeError` — recording no complaint against P and leaving the phase
unchanged — exactly when some participant has both shares set while its
`verification_points` are unset or empty. -/
theorem claim_share_verification_behaviour :
    (∀ inp s s', handle_key_verification_phase inp s = .ok s' →
      (s.participants.map ECDKGParticipant.eth_address).Nodup →
      s'.phase = .key_check ∧
      ∀ p ∈ s.participants,
        ((∃ sh1 sh2 vps, p.secret_share1 = some sh1 ∧ p.secret_share2 = some sh2 ∧
            p.verification_points = some vps ∧ vps ≠ [] ∧
            secp256k1.add (secp256k1.multiply secp256k1.G sh1)
                (secp256k1.multiply inp.G2 sh2) =
              (vps.enum.map (fun kp => secp256k1.multiply kp.2
                (inp.own_address ^ kp.1 % secp256k1.N))).sum) →
          s'.complaints.count (p.eth_address, inp.own_address) =
            s.complaints.count (p.eth_address, inp.own_address)) ∧
        (((p.secret_share1 = none ∨ p.secret_share2 = none) ∨
          ∃ sh1 sh2 vps, p.secret_share1 = some sh1 ∧ p.secret_share2 = some sh2 ∧
            p.verification_points = some vps ∧ vps ≠ [] ∧
            secp256k1.add (secp256k1.multiply secp256k1.G sh1)
                (secp256k1.multiply inp.G2 sh2) ≠
              (vps.enum.map (fun kp => secp256k1.multiply kp.2
                (inp.own_address ^ kp.1 % secp256k1.N))).sum) →
          s'.complaints.count (p.eth_address, inp.own_address) =
            max 1 (s.complaints.count (p.eth_address, inp.own_address)))) ∧
    (∀ inp s, (∃ e s₂, handle_key_verification_phase inp s = .error (e, s₂)) ↔
      ∃ p ∈ s.participants, (∃ sh1, p.secret_share1 = some sh1) ∧
        (∃ sh2, p.secret_share2 = some sh2) ∧
        (p.verification_points = none ∨ p.verification_points = some [])) ∧
    (∀ inp s s₂ e, handle_key_verification_phase inp s = .error (e, s₂) →
      s₂.phase = s.phase ∧ s₂.participants = s.participants) := by
  refine ⟨fun inp s s' h hnodup => ?_, fun inp s => ?_, fun inp s s₂ e h => ?_⟩
  · unfold handle_key_verification_phase at h
    split at h
    · exact absurd h (by simp)
    · rename_i acc hloop
      cases h
      refine ⟨rfl, fun p hp => ?_⟩
      have hcnt := verification_loop_count inp.own_address inp.G2 s.participants
        s.complaints acc hloop hnodup p hp
      constructor
      · intro hgood
        exact hcnt.1 ((participant_check_ok_true_iff inp.own_address inp.G2 p).mpr hgood)
      · intro hbad
        exact hcnt.2 ((participant_check_ok_false_iff inp.own_address inp.G2 p).mpr hbad)
  · constructor
    · rintro ⟨e, s₂, h⟩
      unfold handle_key_verification_phase at h
      split at h
      · rename_i acc hloop
        obtain ⟨p, hp, hchk⟩ := (verification_loop_error_iff inp.own_address inp.G2
          s.participants s.complaints).mp ⟨acc, hloop⟩
        exact ⟨p, hp, (participant_check_error_iff inp.own_address inp.G2 p).mp hchk⟩
      · exact absurd h (by simp)
    · rintro ⟨p, hp, hcond⟩
      obtain ⟨acc'', hloop⟩ := (verification_loop_error_iff inp.own_address inp.G2
        s.participants s.complaints).mpr
        ⟨p, hp, (participant_check_error_iff inp.own_address inp.G2 p).mpr hcond⟩
      refine ⟨.typeError, { s with complaints := acc'' }, ?_⟩
      unfold handle_key_verification_phase
      rw [hloop]
  · unfold handle_key_verification_phase at h
    split at h
    · cases h
      exact ⟨rfl, rfl⟩
    · exact absurd h (by simp)

/-- A session in `KeyVerification` whose single participant has both secret
shares set but no verification points persisted. -/
def c2_participant : ECDKGParticipant :=
  { eth_address := 3, secret_share1 := some 4, secret_share2 := some 5 }

def c2_session : ECDKG :=
  { decryption_condition := "cond", phase := .key_verification,
    participants := [c2_participant] }

/-- C2 counterexample: for a participant whose two shares are set while its
`verification_points` are missing, the handler does not record a complaint
and advance the phase as the claim states — it raises a `TypeError`
(`enumerate(None)`), leaving the complaint table empty and the phase at
`key_verification`. -/
theorem claim_share_verification_counterexample :
    handle_key_verification_phase null_inputs c2_session =
      .error (.typeError, c2_session) ∧
    c2_session.complaints = [] ∧ c2_session.phase = .key_verification :=
  ⟨rfl, rfl, rfl⟩

/-- A session in `KeyVerification` with one participant passing the share
check (its single verification point equals `4·G + 5·H`) and one
participant with a missing share. -/
def c2_good_participant : ECDKGParticipant :=
  { eth_address := 3, secret_share1 := some 4, secret_share2 := some 5,
    verification_points := some [14] }

def c2_bad_participant : ECDKGParticipant := { eth_address := 8 }

def c2_good_session : ECDKG :=
  { decryption_condition := "cond", phase := .key_verification,
    participants := [c2_good_participant, c2_bad_participant] }

theorem claim_share_verification_behaviour_witness :
    (∃ s', handle_key_verification_phase null_inputs c2_good_session = .ok s' ∧
      s'.phase = .key_check ∧
      s'.complaints.count (3, null_inputs.own_address) =
        c2_good_session.complaints.count (3, null_inputs.own_address) ∧
      s'.complaints.count (8, null_inputs.own_address) =
        max 1 (c2_good_session.complaints.count (8, null_inputs.own_address)) ∧
      s'.complaints = [(8, 7)]) ∧
    (∃ e s₂, handle_key_verification_phase null_inputs c2_session = .error (e, s₂)) := by
  constructor
  · obtain ⟨hphase, hcnt⟩ :=
      (claim_share_verification_behaviour.1 null_inputs c2_good_session _ rfl (by decide))
    refine ⟨_, rfl, hphase, ?_, ?_, rfl⟩
    · exact (hcnt c2_good_participant (by simp [c2_good_session])).1
        ⟨4, 5, [14], rfl, rfl, rfl, by decide, by decide⟩
    · exact (hcnt c2_bad_participant (by simp [c2_good_session])).2 (Or.inl (Or.inl rfl))
  · exact (claim_share_verification_behaviour.2.1 null_inputs c2_session).mpr
      ⟨c2_participant, by simp [c2_session], ⟨4, rfl⟩, ⟨5, rfl⟩, Or.inl rfl⟩


/-- Abbreviation: a participant updated with the encryption key part derived
from its address. -/
def with_ekp (f : ℕ → secp256k1.Point) (p : ECDKGParticipant) : ECDKGParticipant :=
  { p with encryption_key_part := some (f p.eth_address) }

/-- Abbreviation: a participant updated with the decryption key part derived
from its address. -/
def with_dkp (sec : ℕ → ℕ) (p : ECDKGParticipant) : ECDKGParticipant :=
  { p with decryption_key_part := some (sec p.eth_address) }

theorem set_ekp_ok_map (resp : ℕ → Option secp256k1.Point) (f : ℕ → secp256k1.Point) :
    ∀ ps : List ECDKGParticipant, (∀ p ∈ ps, resp p.eth_address = some (f p.eth_address)) →
      set_encryption_key_parts resp ps = .ok (ps.map (with_ekp f)) := by
  intro ps
  induction ps with
  | nil => intro _; rfl
  | cons p rest ih =>
    intro h
    rw [set_encryption_key_parts, h p (by simp), ih (fun q hq => h q (by simp [hq]))]
    rfl

theorem set_dkp_ok_map (resp : ℕ → Option ℕ) (sec : ℕ → ℕ) :
    ∀ ps : List ECDKGParticipant, (∀ p ∈ ps, resp p.eth_address = some (sec p.eth_address)) →
      set_decryption_key_parts resp ps = .ok (ps.map (with_dkp sec)) := by
  intro ps
  induction ps with
  | nil => intro _; rfl
  | cons p rest ih =>
    intro h
    rw [set_decryption_key_parts, h p (by simp), ih (fun q hq => h q (by simp [hq]))]
    rfl

theorem reduce_ekp_map (f : ℕ → secp256k1.Point) :
    ∀ (ps : List ECDKGParticipant) (init : secp256k1.Point),
      reduce_encryption_key_parts init (ps.map (with_ekp f)) =
        .ok (init + (ps.map fun p => f p.eth_address).sum) := by
  intro ps
  induction ps with
  | nil => intro init; simp [reduce_encryption_key_parts]
  | cons p rest ih =>
    intro init
    rw [List.map_cons]
    show reduce_encryption_key_parts (secp256k1.add init (f p.eth_address))
        (rest.map (with_ekp f)) = _
    rw [ih (secp256k1.add init (f p.eth_address)), List.map_cons, List.sum_cons]
    show Except.ok (init + f p.eth_address + _) = Except.ok (init + (f p.eth_address + _))
    rw [add_assoc]

theorem sum_dkp_map (sec : ℕ → ℕ) :
    ∀ ps : List ECDKGParticipant,
      sum_decryption_key_parts (ps.map (with_dkp sec)) =
        .ok (ps.map fun p => sec p.eth_address).sum := by
  intro ps
  induction ps with
  | nil => rfl
  | cons p rest ih =>
    rw [List.map_cons]
    show (match sum_decryption_key_parts (rest.map (with_dkp sec)) with
      | .ok t => Except.ok (sec p.eth_address + t)
      | .error e => Except.error e) = _
    rw [ih, List.map_cons, List.sum_cons]

/-- C1: if every participant behaves honestly — each peer's persisted
`encryption_key_part` equals `sᵢ·G` for the scalar `sᵢ` (that peer's own
`secret_poly1[0]`) that it later delivers as its `decryption_key_part` —
then after `KeyGeneration` and `KeyPublication` complete, the session
satisfies `decryption_key·G = encryption_key`, where `encryption_key` is
the node's own `encryption_key_part` plus the sum of all participants'
parts and `decryption_key` is `(Σ decryption_key_parts + secret_poly1[0])
mod N`. -/
theorem claim_joint_key_correct (inp : PhaseInputs) (s : ECDKG) (c0 : ℕ) (rest : List ℕ)
    (sec : ℕ → ℕ)
    (hpoly : s.secret_poly1 = some (c0 :: rest))
    (hekp : s.encryption_key_part = some (secp256k1.multiply secp256k1.G c0))
    (hresp : ∀ p ∈ s.participants,
      inp.encryption_key_parts p.eth_address =
        some (secp256k1.multiply secp256k1.G (sec p.eth_address)) ∧
      inp.dec_key_parts p.eth_address = some (sec p.eth_address)) :
    ∃ s1 s2, handle_key_generation_phase inp s = .ok s1 ∧
      handle_key_publication_phase inp s1 = .ok s2 ∧
      ∃ ek dk, s2.encryption_key = some ek ∧ s2.decryption_key = some dk ∧
        secp256k1.multiply secp256k1.G dk = ek := by
  have hset1 := set_ekp_ok_map inp.encryption_key_parts
    (fun a => secp256k1.multiply secp256k1.G (sec a)) s.participants
    (fun p hp => (hresp p hp).1)
  have hred := reduce_ekp_map (fun a => secp256k1.multiply secp256k1.G (sec a))
    s.participants (secp256k1.multiply secp256k1.G c0)
  have h1 : handle_key_generation_phase inp s = .ok
      { s with
        participants := s.participants.map
          (with_ekp (fun a => secp256k1.multiply secp256k1.G (sec a))),
        encryption_key := some (secp256k1.multiply secp256k1.G c0 +
          (s.participants.map fun p =>
            secp256k1.multiply secp256k1.G (sec p.eth_address)).sum),
        phase := .key_publication } := by
    unfold handle_key_generation_phase
    simp only [hset1, hekp, hred]
  have hresp2 : ∀ p ∈ s.participants.map
      (with_ekp (fun a => secp256k1.multiply secp256k1.G (sec a))),
      inp.dec_key_parts p.eth_address = some (sec p.eth_address) := by
    intro p hp
    obtain ⟨q, hq, hqp⟩ := List.mem_map.mp hp
    subst hqp
    exact (hresp q hq).2
  have hset2 := set_dkp_ok_map inp.dec_key_parts sec _ hresp2
  have hsum := sum_dkp_map sec (s.participants.map
    (with_ekp (fun a => secp256k1.multiply secp256k1.G (sec a))))
  have h2 : handle_key_publication_phase inp
      { s with
        participants := s.participants.map
          (with_ekp (fun a => secp256k1.multiply secp256k1.G (sec a))),
        encryption_key := some (secp256k1.multiply secp256k1.G c0 +
          (s.participants.map fun p =>
            secp256k1.multiply secp256k1.G (sec p.eth_address)).sum),
        phase := .key_publication } = .ok
      { s with
        participants := (s.participants.map
          (with_ekp (fun a => secp256k1.multiply secp256k1.G (sec a)))).map (with_dkp sec),
        encryption_key := some (secp256k1.multiply secp256k1.G c0 +
          (s.participants.map fun p =>
            secp256k1.multiply secp256k1.G (sec p.eth_address)).sum),
        decryption_key := some ((((s.participants.map
          (with_ekp (fun a => secp256k1.multiply secp256k1.G (sec a)))).map
            fun p => sec p.eth_address).sum + c0) % secp256k1.N),
        phase := .complete } := by
    unfold handle_key_publication_phase
    simp only [hset2, hsum, hpoly]
  refine ⟨_, _, h1, h2, _, _, rfl, rfl, ?_⟩
  have haddr : ((s.participants.map
      (with_ekp (fun a => secp256k1.multiply secp256k1.G (sec a)))).map
        fun p => sec p.eth_address) =
      s.participants.map fun p => sec p.eth_address := by
    rw [List.map_map]
    rfl
  rw [haddr]
  unfold secp256k1.multiply secp256k1.G
  rw [ZMod.natCast_mod, mul_one]
  push_cast [Nat.cast_list_sum]
  rw [List.map_map]
  rw [add_comm]
  congr 1
  · rw [mul_one]
  · simp only [Function.comp_def, mul_one]

/-- Inputs of an honest single-peer run: the peer's published key part is
`9·G` and its delivered decryption key part is `9`. -/
def c1_inputs : PhaseInputs where
  own_address := 7
  G2 := 2
  channels := []
  draw1 := fun _ => 1
  draw2 := fun _ => 1
  recover := fun _ _ => .error ()
  signed_secret_shares := fun _ => none
  verification_points_resp := fun _ => none
  encryption_key_parts := fun _ => some (secp256k1.multiply secp256k1.G 9)
  dec_key_parts := fun _ => some 9

/-- A session entering `KeyGeneration` whose own `secret_poly1[0]` is `11`. -/
def c1_session : ECDKG :=
  { decryption_condition := "cond", phase := .key_generation,
    participants := [{ eth_address := 3 }],
    secret_poly1 := some [11],
    encryption_key_part := some (secp256k1.multiply secp256k1.G 11) }

theorem claim_joint_key_correct_witness :
    ∃ s1 s2, handle_key_generation_phase c1_inputs c1_session = .ok s1 ∧
      handle_key_publication_phase c1_inputs s1 = .ok s2 ∧
      ∃ ek dk, s2.encryption_key = some ek ∧ s2.decryption_key = some dk ∧
        secp256k1.multiply secp256k1.G dk = ek :=
  claim_joint_key_correct c1_inputs c1_session 11 [] (fun _ => 9) rfl rfl
    (fun _ _ => ⟨rfl, rfl⟩)
